import Mathlib

/-!
Verification of the FreeCAD Path Vcarve core (PathVcarve.py, PathWidthToDepth.py)
against its natural-language specification.

The Python modules are shallowly embedded:
* the width-to-depth calculators (PathWidthToDepth.py) become structures over
  the reals, with Real.tan and Real.sqrt standing for the float library calls;
* the Voronoi wire assembly and sorting (PathVcarve.py) become computable
  functions over lists; the Python dict with insertion-order iteration is
  embedded as an association list with in-place update and tail insertion.
-/

namespace Vcarve

/-! ## Width-to-depth calculators (PathWidthToDepth.py)

Source: class ConicalWidthToDepthCalculator.  The constructor stores
rMax = Diameter/2, rMin = TipDiameter/2, scale = 1/tan(radians(angle/2)),
zOff = rMin*scale, then calls SetLimits(0,0); the factory immediately calls
SetLimits(zStart, zFinal) afterwards.  math.radians converts degrees to
radians. -/

noncomputable def radians (deg : Real) : Real := deg * Real.pi / 180

structure ConicalCalc where
  rMax : Real
  rMin : Real
  scale : Real
  zOff : Real
  start : Real
  stop : Real

/-- Source: ConicalWidthToDepthCalculator.SetLimits. -/
noncomputable def ConicalCalc.SetLimits (c : ConicalCalc) (zStart zFinal : Real) : ConicalCalc :=
  { c with
    start := zStart + c.zOff
    stop := max (zStart - c.rMax * c.scale + c.zOff) zFinal }

/-- Source: ConicalWidthToDepthCalculator constructor (limits 0,0 as in the
Python constructor; the factory rebinds them via SetLimits). -/
noncomputable def mkConical (Diameter TipDiameter CuttingEdgeAngle : Real) : ConicalCalc :=
  let rMax := Diameter / 2
  let rMin := TipDiameter / 2
  let toolangle := Real.tan (radians (CuttingEdgeAngle / 2))
  let scale := 1 / toolangle
  let zOff := rMin * scale
  ConicalCalc.SetLimits
    { rMax := rMax, rMin := rMin, scale := scale, zOff := zOff, start := 0, stop := 0 } 0 0

/-- Source: ConicalWidthToDepthCalculator.WidthToDepth. -/
noncomputable def ConicalCalc.WidthToDepth (c : ConicalCalc) (width : Real) : Real :=
  max (c.start - width * c.scale) c.stop

/-- Source: class SphericalWidthToDepthCalculator: rMax = Diameter/2,
r_squared = rMax^2, SetLimits stores start = zStart,
stop = max (zStart - rMax) zFinal. -/
structure SphericalCalc where
  rMax : Real
  r_squared : Real
  start : Real
  stop : Real

/-- Source: SphericalWidthToDepthCalculator.SetLimits. -/
noncomputable def SphericalCalc.SetLimits (c : SphericalCalc) (zStart zFinal : Real) :
    SphericalCalc :=
  { c with start := zStart, stop := max (zStart - c.rMax) zFinal }

/-- Source: SphericalWidthToDepthCalculator constructor. -/
noncomputable def mkSpherical (Diameter : Real) : SphericalCalc :=
  let rMax := Diameter / 2
  SphericalCalc.SetLimits
    { rMax := rMax, r_squared := rMax ^ 2, start := 0, stop := 0 } 0 0

/-- Source: SphericalWidthToDepthCalculator.WidthToDepth (with the local
variable depth inlined).  math.sqrt is embedded as Real.sqrt. -/
noncomputable def SphericalCalc.WidthToDepth (c : SphericalCalc) (width : Real) : Real :=
  max (c.start -
    (if width < c.rMax then c.rMax - Real.sqrt (c.r_squared - width ^ 2) else c.rMax)) c.stop

/-- Source: UnsupportedBitToDepthCalculator.WidthToDepth (always 0). -/
def unsupportedWidthToDepth (_width : Real) : Real := 0

/-! ## The WidthToDepthCalculator factory (PathWidthToDepth.py) and the
opExecute guard (PathVcarve.py)

The factory dispatches on the bit shape file name; tool parameters are taken
as rationals (the float values of Diameter, TipDiameter, CuttingEdgeAngle).
Which concrete calculator class is instantiated is recorded as a tagged
variant; FreeCAD.Console.PrintError is recorded as a Boolean flag. -/

structure Tool where
  Diameter : Rat
  TipDiameter : Rat
  CuttingEdgeAngle : Rat
deriving DecidableEq

inductive CalcKind where
  | conical (Diameter TipDiameter CuttingEdgeAngle : Rat)
  | spherical (Diameter : Rat)
  | unsupported
deriving DecidableEq

/-- Source: the SupportsVcarve property of the three calculator classes. -/
def CalcKind.SupportsVcarve : CalcKind → Bool
  | .unsupported => false
  | _ => true

/-- Source: function WidthToDepthCalculator(tool, bitShape, zStart, zFinal)
in PathWidthToDepth.py.  Strings are taken as character lists so that
Python str.endswith becomes List.isSuffixOf.  The returned Bool records
whether FreeCAD.Console.PrintError was called (the angle error message). -/
def widthToDepthCalculatorFactory (tool : Tool) (bitShape : List Char) : CalcKind × Bool :=
  if ("v-bit.fcstd".toList).isSuffixOf bitShape then
    if 180 ≤ tool.CuttingEdgeAngle then
      (.unsupported, true)
    else
      (.conical tool.Diameter tool.TipDiameter tool.CuttingEdgeAngle, false)
  else if ("ballend.fcstd".toList).isSuffixOf bitShape then
    (.spherical tool.Diameter, false)
  else
    (.unsupported, false)

/-- Source: the SupportsVcarve guard at the top of ObjectVcarve.opExecute:
when the factory result does not support vcarve, opExecute prints an error
and returns before buildPathMedial can run, so no path commands are
produced.  The would-be output of the rest of opExecute is abstracted as
the parameter build. -/
def opExecuteGuard {C : Type} (tool : Tool) (bitShape : List Char) (build : List C) :
    Option (List C) :=
  if (widthToDepthCalculatorFactory tool bitShape).1.SupportsVcarve then some build else none

/-! ## Exception flow of buildPathMedial and opExecute (PathVcarve.py)

ObjectVcarve.buildPathMedial loops over the faces collecting wires (diagram
construction and wire assembly may raise), then loops over the collected
wires building path commands (may raise), and only after both loops finish
assigns self.commandlist.  ObjectVcarve.opExecute wraps the whole thing in a
single try/except; the except branch only logs, leaving commandlist alone.
The fallible region and wire processing done by external collaborators is
abstracted as the Except-valued parameters procFace and procWire; the pure
wire sorting step is the parameter sortW. -/

/-- A Python for-loop whose body may raise: process the items in order,
collecting the results, propagating the first exception. -/
def mapE {α β E : Type} (f : α → Except E β) : List α → Except E (List β)
  | [] => .ok []
  | a :: l =>
    match f a with
    | .error e => .error e
    | .ok b =>
      match mapE f l with
      | .error e => .error e
      | .ok bs => .ok (b :: bs)

def buildPathMedialE {F W C E : Type} (procFace : F → Except E (List W))
    (sortW : List W → List W) (procWire : W → Except E (List C))
    (faces : List F) : Except E (List C) :=
  match mapE procFace faces with
  | .error e => .error e
  | .ok wss =>
    match mapE procWire (sortW wss.flatten) with
    | .error e => .error e
    | .ok cmds => .ok cmds.flatten

structure OpState (C : Type) where
  commandlist : Option (List C)
deriving DecidableEq

/-- Source: the try/except in ObjectVcarve.opExecute around the region loop:
on success commandlist is assigned the full path list, on any exception the
state is left untouched (the handler only logs). -/
def opExecuteE {F W C E : Type} (st : OpState C) (procFace : F → Except E (List W))
    (sortW : List W → List W) (procWire : W → Except E (List C))
    (faces : List F) : OpState C :=
  match buildPathMedialE procFace sortW procWire faces with
  | .ok cmds => { commandlist := some cmds }
  | .error _ => st

/-! ## Depth rounding in _calculate_depth / _getPartEdge (PathVcarve.py)

_calculate_depth returns round(WidthToDepth(MIC), 4): rounding to 4 decimal
places, embedding the Python float round (round-half-to-even) over the
reals.  _getPartEdge resolves both endpoint clearance distances through it
before building the 3D segment. -/

noncomputable def roundHalfEven (x : Real) : Int :=
  if Int.fract x < 1 / 2 then ⌊x⌋
  else if 1 / 2 < Int.fract x then ⌈x⌉
  else if Even ⌊x⌋ then ⌊x⌋ else ⌈x⌉

/-- Python round(x, 4) over the reals. -/
noncomputable def pyRound4 (x : Real) : Real := (roundHalfEven (x * 10000) : Real) / 10000

/-- Source: _calculate_depth(MIC, width_to_depth_calculator). -/
noncomputable def calculateDepth (MIC : Real) (widthToDepth : Real → Real) : Real :=
  pyRound4 (widthToDepth MIC)

/-- A 3D path edge as far as its endpoint depths are concerned; the planar
geometry handled by edge.toShape is external. -/
structure PathSeg where
  zBegin : Real
  zEnd : Real

/-- Source: _getPartEdge(edge, width_to_depth_calculator); the pair dist is
edge.getDistances(). -/
noncomputable def getPartEdge (dist : Real × Real) (widthToDepth : Real → Real) : PathSeg :=
  { zBegin := calculateDepth dist.1 widthToDepth
    zEnd := calculateDepth dist.2 widthToDepth }

/-! ## simplify_edges (PathVcarve.py, inside ObjectVcarve._getPartEdges)

Points are 3D vectors over the rationals.  PathUtils.simplify3dLine is an
external collaborator, abstracted as the parameter simp3d; the spec states
that it merges near-colinear segments preserving the true endpoints. -/

abbrev Pt3 := Rat × Rat × Rat

/-- Source: the nested median(v1, v2): v1 + (v2 - v1) scaled by 0.5. -/
def median (v1 v2 : Pt3) : Pt3 :=
  (v1.1 + (v2.1 - v1.1) / 2, v1.2.1 + (v2.2.1 - v1.2.1) / 2, v1.2.2 + (v2.2.2 - v1.2.2) / 2)

/-- Source: the point-pairing loop at the end of simplify_edges:
for i in range(0, len(points) - 1, 2) build a segment from points i and
i+1.  Both leave a final unpaired point unused when the length is odd. -/
def pairUp : List Pt3 → List (Pt3 × Pt3)
  | p1 :: p2 :: rest => (p1, p2) :: pairUp rest
  | _ => []

/-- Source: the odd-length fixup in simplify_edges: if the simplified point
count is odd, the median of the last two points is inserted before the last
one (Python list.insert(-1, m)). -/
def oddFix (sp : List Pt3) : List Pt3 :=
  if sp.length % 2 ≠ 0 then
    sp.insertIdx (sp.length - 1)
      (median (sp.getD (sp.length - 2) default) (sp.getD (sp.length - 1) default))
  else sp

/-- Source: simplify_edges(edges).  An edge is its two endpoints; the point
list is the first point of the first edge followed by the last point of
every edge.  On an empty edge list Python would raise (edges[0]); the
embedding returns []. -/
def simplifyEdges (simp3d : List Pt3 → List Pt3) (edges : List (Pt3 × Pt3)) :
    List (Pt3 × Pt3) :=
  match edges with
  | [] => []
  | e0 :: _ =>
    pairUp (oddFix (simp3d (e0.1 :: edges.map (fun e => e.2))))

/-! ## Voronoi wire assembly (_collectVoronoiWires, PathVcarve.py)

A diagram is a list of directed half-edges; each edge carries its Index, its
twin's Index, the indices of its two vertices (Vertices[0] and Vertices[1])
and its Color.  The Python vertex dict (int key -> list of incident edges,
iterated in insertion order) is an association list updated in place, with
new keys appended at the tail. -/

def PRIMARY : Nat := 0

structure HalfEdge where
  idx : Nat
  twinIdx : Nat
  a : Nat
  b : Nat
  color : Nat
deriving DecidableEq, Inhabited

/-- Source: edges = [e for e in vd.Edges if e.Color == PRIMARY]. -/
def primaryEdges (vd : List HalfEdge) : List HalfEdge :=
  vd.filter (fun e => e.color == PRIMARY)

/-- Source: e.Twin — the diagram edge whose Index is this edge's twin index.
In a well-formed diagram it always exists; the edge itself is the fallback. -/
def getTwin (vd : List HalfEdge) (e : HalfEdge) : HalfEdge :=
  (vd.find? (fun t => t.idx == e.twinIdx)).getD e

abbrev VMap := List (Nat × List HalfEdge)

/-- vertex[v], with [] for a missing key (Python raises KeyError there; the
algorithm only ever reads existing keys). -/
def mget (m : VMap) (v : Nat) : List HalfEdge :=
  match m.find? (fun p => p.1 == v) with
  | some p => p.2
  | none => []

/-- vertex[v] = l: replace in place if the key exists, else append it. -/
def mset (m : VMap) (v : Nat) (l : List HalfEdge) : VMap :=
  if m.any (fun p => p.1 == v) then
    m.map (fun p => if p.1 == v then (v, l) else p)
  else
    m ++ [(v, l)]

def msize (m : VMap) : Nat := (m.map (fun p => p.2.length)).sum

/-- Source: the vertex dict built at the top of _collectVoronoiWires: every
primary edge is appended to the incidence lists of both its vertices. -/
def buildVertex (edges : List HalfEdge) : VMap :=
  edges.foldl (fun m e => [e.a, e.b].foldl (fun m2 v => mset m2 v (mget m2 v ++ [e])) m) []

/-- Source: the knots list before the pure-cycle fallback: keys with exactly
one incident edge, then keys with more than two, in dict iteration order. -/
def initKnotsBase (m : VMap) : List Nat :=
  (m.filter (fun p => p.2.length == 1)).map (fun p => p.1)
    ++ (m.filter (fun p => 2 < p.2.length)).map (fun p => p.1)

/-- Source: the knots list: if no key has degree 1 or more than 2, the first
key with a nonempty list is the only knot. -/
def initKnots (m : VMap) : List Nat :=
  if (initKnotsBase m).isEmpty then
    match m.find? (fun p => decide (0 < p.2.length)) with
    | some p => [p.1]
    | none => []
  else initKnotsBase m

/-- Source: consume(v, edge): drop the edge (by Index) from the incidence
list of v; report whether the list became empty. -/
def consume (m : VMap) (v : Nat) (e : HalfEdge) : VMap × Bool :=
  let l := (mget m v).filter (fun x => x.idx != e.idx)
  (mset m v l, l.isEmpty)

/-- Source: traverse(vStart, edge, edges): determine the far vertex, append
the edge (or its twin when walking against its stored direction) to the
wire, consume the edge at both endpoints, and return the far vertex unless
its list became empty. -/
def traverse (vd : List HalfEdge) (vStart : Nat) (e : HalfEdge) (m : VMap) :
    Option Nat × VMap × HalfEdge :=
  let vEnd := if vStart == e.a then e.b else e.a
  let app := if vStart == e.a then e else getTwin vd e
  let m1 := (consume m vStart e).1
  let r2 := consume m1 vEnd e
  (if r2.2 then none else some vEnd, r2.1, app)

/-- Source: the inner while loop of _collectVoronoiWires; returns Python's
vLast together with the final map and the accumulated wire.  The fuel only
bounds the iteration count: each step consumes at least one edge, so the
caller's msize m + 1 never runs out. -/
def walk (vd : List HalfEdge) :
    Nat → Nat → VMap → List HalfEdge → Nat × VMap × List HalfEdge
  | 0, vStart, m, we => (vStart, m, we)
  | fuel + 1, vStart, m, we =>
    match mget m vStart with
    | [] => (vStart, m, we)
    | e :: _ =>
      let r := traverse vd vStart e m
      match r.1 with
      | none => (vStart, r.2.1, we ++ [r.2.2])
      | some v => walk vd fuel v r.2.1 (we ++ [r.2.2])

/-- Source: the outer while loop of _collectVoronoiWires: take the first
knot, walk from it if it still has edges (appending the resulting wire),
then drop the first knot and the walk's last vertex from the knots list
when their incidence lists are empty.  The fuel bounds the iteration count:
every iteration either consumes an edge or shortens the knots list. -/
def collectLoop (vd : List HalfEdge) :
    Nat → List Nat → VMap → List (List HalfEdge) → List (List HalfEdge)
  | 0, _, _, wires => wires
  | _ + 1, [], _, wires => wires
  | fuel + 1, vFirst :: rest, m, wires =>
    let knots := vFirst :: rest
    let step :=
      if (mget m vFirst).isEmpty then (vFirst, m, wires)
      else
        let w := walk vd (msize m + 1) vFirst m []
        (w.1, w.2.1, wires ++ [w.2.2])
    let m2 := step.2.1
    let k1 := if (mget m2 vFirst).isEmpty then knots.filter (fun v => v != vFirst) else knots
    let k2 := if (mget m2 step.1).isEmpty then k1.filter (fun v => v != step.1) else k1
    collectLoop vd fuel k2 m2 step.2.2

/-- Source: _collectVoronoiWires(vd). -/
def collectVoronoiWires (vd : List HalfEdge) : List (List HalfEdge) :=
  let edges := primaryEdges vd
  let m := buildVertex edges
  let knots := initKnots m
  collectLoop vd (msize m + knots.length + 1) knots m []

/-! ## Wire sorting (_sortVoronoiWires, PathVcarve.py) -/

abbrev Pt := Int × Int

/-- Squared Euclidean distance.  FreeCAD's Vector.distanceToPoint is the
Euclidean distance; _sortVoronoiWires only ever compares distances, and
comparing nonnegative distances is the same as comparing their squares, so
the embedding works with squared distances throughout. -/
def distSq (p q : Pt) : Int := (p.1 - q.1) ^ 2 + (p.2 - q.2) ^ 2

/-- The loop body of closestTo: take the entry if no best is recorded yet or
if it is a strict improvement (Python: l is None or l > dist). -/
def closestStep (start : Pt) (pl : Option Nat × Option Int) (kv : Nat × Pt) :
    Option Nat × Option Int :=
  match pl.2 with
  | none => (some kv.1, some (distSq start kv.2))
  | some l =>
    if distSq start kv.2 < l then (some kv.1, some (distSq start kv.2)) else pl

/-- Source: closestTo(start, point): the key of the dict entry nearest to
start, scanning in insertion order and keeping the first strict
improvement, together with its distance. -/
def closestTo (start : Pt) (point : List (Nat × Pt)) : Option Nat × Option Int :=
  point.foldl (closestStep start) (none, none)

/-- begin[i] (resp. end[i]) lookup. -/
def lookupPt (m : List (Nat × Pt)) (k : Nat) : Pt :=
  match m.find? (fun p => p.1 == k) with
  | some p => p.2
  | none => (0, 0)

/-- del begin[i]: dict deletion keeps the order of the other entries. -/
def delKey (m : List (Nat × Pt)) (k : Nat) : List (Nat × Pt) :=
  m.filter (fun p => p.1 != k)

/-- Source: the while loop of _sortVoronoiWires.  The fuel bounds the
iteration count (one key is deleted per step); the caller passes the number
of wires. -/
def sortLoop (vd : List HalfEdge) (wires : List (List HalfEdge)) :
    Nat → Pt → List (Nat × Pt) → List (Nat × Pt) → List (List HalfEdge)
  | 0, _, _, _ => []
  | fuel + 1, start, bg, en =>
    match closestTo start bg, closestTo start en with
    | (some bIdx, some bLen), (some eIdx, some eLen) =>
      if bLen < eLen then
        wires.getD bIdx [] ::
          sortLoop vd wires fuel (lookupPt en bIdx) (delKey bg bIdx) (delKey en bIdx)
      else
        ((wires.getD eIdx []).reverse.map (fun e => getTwin vd e)) ::
          sortLoop vd wires fuel (lookupPt bg eIdx) (delKey bg eIdx) (delKey en eIdx)
    | _, _ => []

/-- Source: _sortVoronoiWires(wires, start): begin[i] is wire i's first
vertex point, end[i] its last vertex point; pos maps a vertex index to its
2D point (Vertex.toPoint). -/
def sortVoronoiWires (vd : List HalfEdge) (pos : Nat → Pt) (wires : List (List HalfEdge))
    (start : Pt) : List (List HalfEdge) :=
  sortLoop vd wires wires.length start
    (wires.enum.map (fun iw => (iw.1, pos ((iw.2.headD default).a))))
    (wires.enum.map (fun iw => (iw.1, pos ((iw.2.getLastD default).b))))

/-! ## Specification predicates for the wire assembly -/

/-- Count of the undirected edge {e, e.Twin} in a flat list of wire edges. -/
def wireCnt (ws : List HalfEdge) (e : HalfEdge) : Nat :=
  ws.countP (fun x => x.idx == e.idx || x.idx == e.twinIdx)

/-- The wire list exactly partitions the primary edge set: every undirected
primary edge occurs exactly once across all wires, and wires hold nothing
but primary edges or their twins. -/
abbrev PartitionsPrimary (vd : List HalfEdge) (wires : List (List HalfEdge)) : Prop :=
  (∀ e ∈ primaryEdges vd, wireCnt wires.flatten e = 1) ∧
  (∀ w ∈ wires, ∀ x ∈ w, ∃ e ∈ primaryEdges vd, x = e ∨ x = getTwin vd e)

/-- The wire partition claim's hypothesis, read literally: every primary edge
has exactly one primary twin (with swapped endpoints). -/
abbrev PrimTwinned (vd : List HalfEdge) : Prop :=
  ∀ e ∈ primaryEdges vd, ∃ t ∈ primaryEdges vd,
    t.idx = e.twinIdx ∧ t.twinIdx = e.idx ∧ t.a = e.b ∧ t.b = e.a ∧
    ∀ t2 ∈ primaryEdges vd, t2.idx = e.twinIdx → t2 = t

/-- Well-formedness of the diagram as _collectVoronoiWires is actually
invoked on it (after colorTwins): distinct edge indices, primary edges with
distinct endpoints, and for every primary edge a twin edge with swapped
endpoints that is not itself primary. -/
abbrev WellFormed (vd : List HalfEdge) : Prop :=
  (vd.map (fun e => e.idx)).Nodup ∧
  (∀ e ∈ primaryEdges vd, e.a ≠ e.b) ∧
  (∀ e ∈ primaryEdges vd, ∃ t ∈ vd, t.idx = e.twinIdx ∧ t.twinIdx = e.idx ∧
    t.a = e.b ∧ t.b = e.a ∧ t.color ≠ PRIMARY)

/-- Two vertices joined by a primary edge. -/
def adjacent (vd : List HalfEdge) (u v : Nat) : Prop :=
  ∃ e ∈ primaryEdges vd, (e.a = u ∧ e.b = v) ∨ (e.a = v ∧ e.b = u)

def hasEdgeAt (vd : List HalfEdge) (v : Nat) : Prop :=
  ∃ e ∈ primaryEdges vd, e.a = v ∨ e.b = v

/-- The primary-edge graph is connected. -/
def ConnectedDiagram (vd : List HalfEdge) : Prop :=
  ∀ u v : Nat, hasEdgeAt vd u → hasEdgeAt vd v →
    Relation.ReflTransGen (adjacent vd) u v

/-- The knot vertices: start and end points of wires (degree 1 or > 2 in
the primary incidence map, or the synthesized one for a pure cycle). -/
def knotVertices (vd : List HalfEdge) : List Nat :=
  initKnots (buildVertex (primaryEdges vd))

/-- Invariant carried through the wire-collection loops: the incidence map
holds sublists of the original one over the same keys, and every primary
edge is either still in both its endpoint lists and absent from the emitted
wire edges, or consumed and emitted exactly once (as itself or its twin). -/
structure LoopInv (vd : List HalfEdge) (m : VMap) (ws : List HalfEdge) : Prop where
  keys : m.map Prod.fst = (buildVertex (primaryEdges vd)).map Prod.fst
  sub : ∀ v, (mget m v).Sublist (mget (buildVertex (primaryEdges vd)) v)
  balance : ∀ e ∈ primaryEdges vd,
    (e ∈ mget m e.a ∧ e ∈ mget m e.b ∧ wireCnt ws e = 0) ∨
    (e ∉ mget m e.a ∧ e ∉ mget m e.b ∧ wireCnt ws e = 1)
  entries : ∀ x ∈ ws, ∃ e ∈ primaryEdges vd, x = e ∨ x = getTwin vd e

/-- Between walks, every non-knot vertex has either consumed all its edges
or none of them. -/
def NonKnotBalanced (vd : List HalfEdge) (m : VMap) : Prop :=
  ∀ v, v ∉ knotVertices vd →
    mget m v = [] ∨ mget m v = mget (buildVertex (primaryEdges vd)) v

/-- The knots list never loses a knot that still has edges, and holds only
original knots. -/
def KnotsOk (vd : List HalfEdge) (knots : List Nat) (m : VMap) : Prop :=
  (∀ v ∈ knotVertices vd, mget m v ≠ [] → v ∈ knots) ∧
  (∀ v ∈ knots, v ∈ knotVertices vd)

/-- A produced wire: nonempty, a chain of directed edges, both endpoints at
knot vertices. -/
abbrev WireOk (vd : List HalfEdge) (w : List HalfEdge) : Prop :=
  w ≠ [] ∧ List.Chain' (fun e f => e.b = f.a) w ∧
  (w.headD default).a ∈ knotVertices vd ∧ (w.getLastD default).b ∈ knotVertices vd

/-! ## Concrete diagrams used as test inputs by the claim theorems -/

/-- A diagram whose two half-edges are twins of each other and both PRIMARY:
the hypothesis of the wire partition claim taken literally. -/
def ceVd : List HalfEdge := [⟨0, 1, 0, 1, 0⟩, ⟨1, 0, 1, 0, 0⟩]

/-- A Y-branch: center vertex 0, leaves 1, 2, 3; one PRIMARY half-edge per
undirected edge, twins colored TWIN (= 5). -/
def yVd : List HalfEdge :=
  [⟨0, 1, 0, 1, 0⟩, ⟨1, 0, 1, 0, 5⟩,
   ⟨2, 3, 0, 2, 0⟩, ⟨3, 2, 2, 0, 5⟩,
   ⟨4, 5, 0, 3, 0⟩, ⟨5, 4, 3, 0, 5⟩]

/-- Three disjoint one-edge wires used by the sorting claim. -/
def sVd : List HalfEdge :=
  [⟨0, 1, 0, 1, 0⟩, ⟨1, 0, 1, 0, 5⟩,
   ⟨2, 3, 2, 3, 0⟩, ⟨3, 2, 3, 2, 5⟩,
   ⟨4, 5, 4, 5, 0⟩, ⟨5, 4, 5, 4, 5⟩]

def sPos : Nat → Pt
  | 0 => (0, 0)
  | 1 => (1, 0)
  | 2 => (10, 10)
  | 3 => (6, 6)
  | 4 => (20, 0)
  | 5 => (21, 0)
  | _ => (0, 0)

def sWires : List (List HalfEdge) :=
  [[⟨0, 1, 0, 1, 0⟩], [⟨2, 3, 2, 3, 0⟩], [⟨4, 5, 4, 5, 0⟩]]

end Vcarve

namespace Vcarve

/-! ## Claim theorems for the conical calculator -/

/-- C2: a conical calculator built with full diameter D, tip diameter Td and
included angle A, after SetLimits(zStart, zFinal), satisfies
scale = 1/tan(radians(A/2)), start = zStart + (Td/2)*scale,
stop = max (zStart - (D/2)*scale + (Td/2)*scale) zFinal, and
WidthToDepth w = max (start - w*scale) stop for every width; in particular
D=10, Td=0, A=90, zStart=0, zFinal=-10 gives start=0, stop=-5, scale=1. -/
theorem conical_setLimits_spec :
    (∀ D Td A zStart zFinal : Real,
      ((mkConical D Td A).SetLimits zStart zFinal).scale = 1 / Real.tan (radians (A / 2)) ∧
      ((mkConical D Td A).SetLimits zStart zFinal).start
        = zStart + (Td / 2) * ((mkConical D Td A).SetLimits zStart zFinal).scale ∧
      ((mkConical D Td A).SetLimits zStart zFinal).stop
        = max (zStart - (D / 2) * ((mkConical D Td A).SetLimits zStart zFinal).scale
            + (Td / 2) * ((mkConical D Td A).SetLimits zStart zFinal).scale) zFinal ∧
      ∀ w : Real,
        ((mkConical D Td A).SetLimits zStart zFinal).WidthToDepth w
          = max (((mkConical D Td A).SetLimits zStart zFinal).start
              - w * ((mkConical D Td A).SetLimits zStart zFinal).scale)
              (((mkConical D Td A).SetLimits zStart zFinal).stop)) ∧
    ((mkConical 10 0 90).SetLimits 0 (-10)).start = 0 ∧
    ((mkConical 10 0 90).SetLimits 0 (-10)).stop = -5 ∧
    ((mkConical 10 0 90).SetLimits 0 (-10)).scale = 1 := by
  have htan : Real.tan (radians (90 / 2)) = 1 := by
    have : radians (90 / 2) = Real.pi / 4 := by
      unfold radians; ring
    rw [this, Real.tan_pi_div_four]
  refine ⟨?_, ?_, ?_, ?_⟩
  · intro D Td A zStart zFinal
    refine ⟨rfl, rfl, ?_, fun w => rfl⟩
    simp only [mkConical, ConicalCalc.SetLimits]
  · simp [mkConical, ConicalCalc.SetLimits, htan]
  · simp [mkConical, ConicalCalc.SetLimits, htan]
    norm_num
  · simp [mkConical, ConicalCalc.SetLimits, htan]

/-! ## Claim theorems for the spherical calculator -/

/-- C5: a spherical calculator of diameter D with rMax = D/2 and bounds set by
SetLimits(zStart, zFinal) satisfies, for every width w ≥ 0: if w < rMax then
the radicand rMax^2 - w^2 is nonnegative (sqrt is never applied to a negative
number) and WidthToDepth w = max (start - (rMax - sqrt (rMax^2 - w^2))) stop,
otherwise WidthToDepth w = max (start - rMax) stop; in particular for D=10,
zStart=0, zFinal=-10: WidthToDepth 5 = -5 and
WidthToDepth 2.5 = -(5 - sqrt (25 - 6.25)). -/
theorem spherical_widthToDepth_spec :
    (∀ D zStart zFinal w : Real, 0 ≤ w →
      (w < ((mkSpherical D).SetLimits zStart zFinal).rMax →
        0 ≤ ((mkSpherical D).SetLimits zStart zFinal).rMax ^ 2 - w ^ 2 ∧
        ((mkSpherical D).SetLimits zStart zFinal).WidthToDepth w
          = max (((mkSpherical D).SetLimits zStart zFinal).start
              - (((mkSpherical D).SetLimits zStart zFinal).rMax
                - Real.sqrt (((mkSpherical D).SetLimits zStart zFinal).rMax ^ 2 - w ^ 2)))
              (((mkSpherical D).SetLimits zStart zFinal).stop)) ∧
      (¬ w < ((mkSpherical D).SetLimits zStart zFinal).rMax →
        ((mkSpherical D).SetLimits zStart zFinal).WidthToDepth w
          = max (((mkSpherical D).SetLimits zStart zFinal).start
              - ((mkSpherical D).SetLimits zStart zFinal).rMax)
              (((mkSpherical D).SetLimits zStart zFinal).stop))) ∧
    ((mkSpherical 10).SetLimits 0 (-10)).WidthToDepth 5 = -5 ∧
    ((mkSpherical 10).SetLimits 0 (-10)).WidthToDepth 2.5
      = -(5 - Real.sqrt (25 - 6.25)) := by
  refine ⟨?_, ?_, ?_⟩
  · intro D zStart zFinal w hw
    constructor
    · intro hlt
      have hrad : 0 ≤ ((mkSpherical D).SetLimits zStart zFinal).rMax ^ 2 - w ^ 2 := by
        have : w ^ 2 ≤ ((mkSpherical D).SetLimits zStart zFinal).rMax ^ 2 :=
          pow_le_pow_left₀ hw (le_of_lt hlt) 2
        linarith
      refine ⟨hrad, ?_⟩
      simp only [SphericalCalc.WidthToDepth, if_pos hlt]
      have : ((mkSpherical D).SetLimits zStart zFinal).r_squared
          = ((mkSpherical D).SetLimits zStart zFinal).rMax ^ 2 := rfl
      rw [this]
    · intro hge
      simp only [SphericalCalc.WidthToDepth, if_neg hge]
  · have h5 : ¬ (5 : Real) < ((mkSpherical 10).SetLimits 0 (-10)).rMax := by
      simp [mkSpherical, SphericalCalc.SetLimits]
      norm_num
    simp only [SphericalCalc.WidthToDepth, if_neg h5]
    simp [mkSpherical, SphericalCalc.SetLimits]
    norm_num
  · have h25 : (2.5 : Real) < ((mkSpherical 10).SetLimits 0 (-10)).rMax := by
      simp [mkSpherical, SphericalCalc.SetLimits]
      norm_num
    simp only [SphericalCalc.WidthToDepth, if_pos h25]
    have hrmax : ((mkSpherical 10).SetLimits 0 (-10)).rMax = 5 := by
      simp [mkSpherical, SphericalCalc.SetLimits]
      norm_num
    have hrsq : ((mkSpherical 10).SetLimits 0 (-10)).r_squared = 25 := by
      simp [mkSpherical, SphericalCalc.SetLimits]
      norm_num
    have hstart : ((mkSpherical 10).SetLimits 0 (-10)).start = 0 := rfl
    have hstop : ((mkSpherical 10).SetLimits 0 (-10)).stop = -5 := by
      simp [mkSpherical, SphericalCalc.SetLimits]
      norm_num
    rw [hrmax, hrsq, hstart, hstop]
    have hsq : Real.sqrt (25 - 2.5 ^ 2) = Real.sqrt (25 - 6.25) := by norm_num
    rw [hsq]
    have h0 : (0 : Real) ≤ Real.sqrt (25 - 6.25) := Real.sqrt_nonneg _
    have hle : Real.sqrt (25 - 6.25) ≤ 5 := by
      have : Real.sqrt (25 - 6.25) ≤ Real.sqrt 25 := by
        apply Real.sqrt_le_sqrt; norm_num
      have h25' : Real.sqrt 25 = 5 := by
        rw [show (25 : Real) = 5 ^ 2 by norm_num, Real.sqrt_sq]; norm_num
      linarith
    rw [max_eq_left (by linarith)]
    ring

/-- C5 witness: the universally quantified part applied at D=10, zStart=0,
zFinal=-10, w=2.5. -/
theorem spherical_widthToDepth_spec_witness :
    0 ≤ ((mkSpherical 10).SetLimits 0 (-10)).rMax ^ 2 - (2.5 : Real) ^ 2 := by
  have h := (spherical_widthToDepth_spec.1 10 0 (-10) 2.5 (by norm_num)).1
  have hlt : (2.5 : Real) < ((mkSpherical 10).SetLimits 0 (-10)).rMax := by
    simp [mkSpherical, SphericalCalc.SetLimits]
    norm_num
  exact (h hlt).1

/-- C4 counterexample: for the conical calculator with D=10, Td=2, A=90,
zStart=0, zFinal=-10 the claimed invariant fails: the depth magnitude strictly
decreases from width 0 to width 1 (|W 0| = 1 > 0 = |W 1|), and W 0 = 1 exceeds
the configured zStart = 0. -/
theorem depth_invariant_counterexample :
    |((mkConical 10 2 90).SetLimits 0 (-10)).WidthToDepth 1|
      < |((mkConical 10 2 90).SetLimits 0 (-10)).WidthToDepth 0| ∧
    (0 : Real) < ((mkConical 10 2 90).SetLimits 0 (-10)).WidthToDepth 0 := by
  have htan : Real.tan (radians (90 / 2)) = 1 := by
    have : radians (90 / 2) = Real.pi / 4 := by
      unfold radians; ring
    rw [this, Real.tan_pi_div_four]
  have hW0 : ((mkConical 10 2 90).SetLimits 0 (-10)).WidthToDepth 0 = 1 := by
    simp [mkConical, ConicalCalc.SetLimits, ConicalCalc.WidthToDepth, htan]
    norm_num
  have hW1 : ((mkConical 10 2 90).SetLimits 0 (-10)).WidthToDepth 1 = 0 := by
    simp [mkConical, ConicalCalc.SetLimits, ConicalCalc.WidthToDepth, htan]
    norm_num
  rw [hW0, hW1]
  norm_num

/-- C4 amended: for every calculator variant the returned depth is monotone
non-increasing in the width (for the conical calculator assuming scale ≥ 0, for
the spherical one assuming 0 ≤ w1), hence the depth magnitude is non-decreasing
once the depth is non-positive; and every returned value lies between stop and
max start stop (for the unsupported calculator the result is constantly 0). -/
theorem depth_invariant_amended :
    (∀ D Td A zStart zFinal w1 w2 : Real,
      0 ≤ ((mkConical D Td A).SetLimits zStart zFinal).scale → w1 ≤ w2 →
      ((mkConical D Td A).SetLimits zStart zFinal).WidthToDepth w2
        ≤ ((mkConical D Td A).SetLimits zStart zFinal).WidthToDepth w1 ∧
      (((mkConical D Td A).SetLimits zStart zFinal).WidthToDepth w1 ≤ 0 →
        |((mkConical D Td A).SetLimits zStart zFinal).WidthToDepth w1|
          ≤ |((mkConical D Td A).SetLimits zStart zFinal).WidthToDepth w2|)) ∧
    (∀ D zStart zFinal w1 w2 : Real, 0 ≤ w1 → w1 ≤ w2 →
      ((mkSpherical D).SetLimits zStart zFinal).WidthToDepth w2
        ≤ ((mkSpherical D).SetLimits zStart zFinal).WidthToDepth w1 ∧
      (((mkSpherical D).SetLimits zStart zFinal).WidthToDepth w1 ≤ 0 →
        |((mkSpherical D).SetLimits zStart zFinal).WidthToDepth w1|
          ≤ |((mkSpherical D).SetLimits zStart zFinal).WidthToDepth w2|)) ∧
    (∀ D Td A zStart zFinal w : Real,
      ((mkConical D Td A).SetLimits zStart zFinal).stop
        ≤ ((mkConical D Td A).SetLimits zStart zFinal).WidthToDepth w ∧
      (0 ≤ w → 0 ≤ ((mkConical D Td A).SetLimits zStart zFinal).scale →
        ((mkConical D Td A).SetLimits zStart zFinal).WidthToDepth w
          ≤ max (((mkConical D Td A).SetLimits zStart zFinal).start)
              (((mkConical D Td A).SetLimits zStart zFinal).stop))) ∧
    (∀ D zStart zFinal w : Real,
      ((mkSpherical D).SetLimits zStart zFinal).stop
        ≤ ((mkSpherical D).SetLimits zStart zFinal).WidthToDepth w ∧
      (0 ≤ w → 0 ≤ ((mkSpherical D).SetLimits zStart zFinal).rMax →
        ((mkSpherical D).SetLimits zStart zFinal).WidthToDepth w
          ≤ max (((mkSpherical D).SetLimits zStart zFinal).start)
              (((mkSpherical D).SetLimits zStart zFinal).stop))) ∧
    (∀ w : Real, unsupportedWidthToDepth w = 0) := by
  have habs : ∀ x y : Real, y ≤ x → x ≤ 0 → |x| ≤ |y| := by
    intro x y hyx hx
    rw [abs_of_nonpos hx, abs_of_nonpos (le_trans hyx hx)]
    linarith
  refine ⟨?_, ?_, ?_, ?_, fun w => rfl⟩
  · intro D Td A zStart zFinal w1 w2 hs h12
    have hmono : ((mkConical D Td A).SetLimits zStart zFinal).WidthToDepth w2
        ≤ ((mkConical D Td A).SetLimits zStart zFinal).WidthToDepth w1 := by
      unfold ConicalCalc.WidthToDepth
      apply max_le_max _ le_rfl
      have := mul_le_mul_of_nonneg_right h12 hs
      linarith
    exact ⟨hmono, fun h1 => habs _ _ hmono h1⟩
  · intro D zStart zFinal w1 w2 h0 h12
    set c := (mkSpherical D).SetLimits zStart zFinal with hc
    have hdep : (if w1 < c.rMax then c.rMax - Real.sqrt (c.r_squared - w1 ^ 2) else c.rMax)
        ≤ (if w2 < c.rMax then c.rMax - Real.sqrt (c.r_squared - w2 ^ 2) else c.rMax) := by
      by_cases h1 : w1 < c.rMax
      · by_cases h2 : w2 < c.rMax
        · rw [if_pos h1, if_pos h2]
          have hsq : Real.sqrt (c.r_squared - w2 ^ 2) ≤ Real.sqrt (c.r_squared - w1 ^ 2) := by
            apply Real.sqrt_le_sqrt
            have : w1 ^ 2 ≤ w2 ^ 2 := pow_le_pow_left₀ h0 h12 2
            linarith
          linarith
        · rw [if_pos h1, if_neg h2]
          have := Real.sqrt_nonneg (c.r_squared - w1 ^ 2)
          linarith
      · have h2 : ¬ w2 < c.rMax := fun h => h1 (lt_of_le_of_lt h12 h)
        rw [if_neg h1, if_neg h2]
    have hmono : c.WidthToDepth w2 ≤ c.WidthToDepth w1 := by
      unfold SphericalCalc.WidthToDepth
      apply max_le_max _ le_rfl
      linarith
    exact ⟨hmono, fun h1 => habs _ _ hmono h1⟩
  · intro D Td A zStart zFinal w
    constructor
    · exact le_max_right _ _
    · intro hw hs
      unfold ConicalCalc.WidthToDepth
      apply max_le_max _ le_rfl
      have := mul_nonneg hw hs
      linarith
  · intro D zStart zFinal w
    constructor
    · exact le_max_right _ _
    · intro hw hr
      set c := (mkSpherical D).SetLimits zStart zFinal with hc
      unfold SphericalCalc.WidthToDepth
      apply max_le_max _ le_rfl
      by_cases h1 : w < c.rMax
      · rw [if_pos h1]
        have h2 : Real.sqrt (c.r_squared - w ^ 2) ≤ Real.sqrt c.r_squared := by
          apply Real.sqrt_le_sqrt
          have : 0 ≤ w ^ 2 := sq_nonneg w
          linarith
        have h4 : Real.sqrt c.r_squared = c.rMax := by
          have : c.r_squared = c.rMax ^ 2 := rfl
          rw [this, Real.sqrt_sq hr]
        have := Real.sqrt_nonneg (c.r_squared - w ^ 2)
        linarith
      · rw [if_neg h1]
        linarith

/-- C4 amended witness: the conical part applied at D=10, Td=0, A=90, zStart=0,
zFinal=-10, w1=1, w2=2 (scale = 1 ≥ 0 there). -/
theorem depth_invariant_amended_witness :
    ((mkConical 10 0 90).SetLimits 0 (-10)).WidthToDepth 2
      ≤ ((mkConical 10 0 90).SetLimits 0 (-10)).WidthToDepth 1 := by
  have hs : (0 : Real) ≤ ((mkConical 10 0 90).SetLimits 0 (-10)).scale := by
    have htan : Real.tan (radians (90 / 2)) = 1 := by
      have : radians (90 / 2) = Real.pi / 4 := by
        unfold radians; ring
      rw [this, Real.tan_pi_div_four]
    simp [mkConical, ConicalCalc.SetLimits, htan]
  exact (depth_invariant_amended.1 10 0 90 0 (-10) 1 2 hs (by norm_num)).1

/-! ## Factory rejection of wide conical angles (C6) -/

/-- C6: for every conical v-bit tool whose CuttingEdgeAngle is at least 180
degrees, the WidthToDepthCalculator factory returns the unsupported
calculator (SupportsVcarve false) after printing the user-visible error
message, and the opExecute guard then returns without producing any path
commands. -/
theorem factory_rejects_wide_angle {C : Type} (tool : Tool) (bitShape : List Char)
    (build : List C) (hshape : ("v-bit.fcstd".toList).isSuffixOf bitShape = true)
    (hangle : 180 ≤ tool.CuttingEdgeAngle) :
    (widthToDepthCalculatorFactory tool bitShape).1 = .unsupported ∧
    (widthToDepthCalculatorFactory tool bitShape).1.SupportsVcarve = false ∧
    (widthToDepthCalculatorFactory tool bitShape).2 = true ∧
    opExecuteGuard tool bitShape build = none := by
  have hfac : widthToDepthCalculatorFactory tool bitShape = (.unsupported, true) := by
    unfold widthToDepthCalculatorFactory
    rw [if_pos hshape, if_pos hangle]
  refine ⟨by rw [hfac], by rw [hfac]; rfl, by rw [hfac], ?_⟩
  unfold opExecuteGuard
  rw [hfac]
  rfl

/-- C6 witness: a v-bit tool with angle 200 ≥ 180. -/
theorem factory_rejects_wide_angle_witness :
    (widthToDepthCalculatorFactory ⟨10, 0, 200⟩ "my-v-bit.fcstd".toList).1.SupportsVcarve
      = false ∧
    opExecuteGuard ⟨10, 0, 200⟩ "my-v-bit.fcstd".toList ([] : List Nat) = none := by
  have h := factory_rejects_wide_angle (C := Nat) ⟨10, 0, 200⟩ "my-v-bit.fcstd".toList []
    (by decide) (by norm_num)
  exact ⟨h.2.1, h.2.2.2⟩

/-! ## All-or-nothing exception flow (C7) -/

theorem mapE_error_of_mem_error {α β E : Type} (proc : α → Except E β) :
    ∀ l : List α, (∃ a ∈ l, ∃ e, proc a = .error e) →
      ∃ e, mapE proc l = .error e := by
  intro l
  induction l with
  | nil => rintro ⟨a, ha, _⟩; exact absurd ha (List.not_mem_nil a)
  | cons a l ih =>
    rintro ⟨b, hb, e, he⟩
    cases hpa : proc a with
    | error e3 => exact ⟨e3, by simp [mapE, hpa]⟩
    | ok b3 =>
      rcases List.mem_cons.mp hb with rfl | hbl
      · rw [hpa] at he
        exact absurd he (by simp)
      · obtain ⟨e2, he2⟩ := ih ⟨b, hbl, e, he⟩
        exact ⟨e2, by simp [mapE, hpa, he2]⟩

/-- C7: an exception anywhere inside buildPathMedial aborts the whole run
with nothing committed.  If processing any one region (face) raises, or the
face loop succeeds but building the path of any one collected wire raises,
buildPathMedial propagates the error and the single top-level handler in
opExecute leaves the command list untouched (so output from regions
processed earlier in the run is discarded too); on any build error the state
is unchanged, on full success the command list is assigned; and commandlist
is assigned only after the full loop completes without error: any change of
state implies the build returned ok. -/
theorem opExecute_all_or_nothing {F W C E : Type} (st : OpState C)
    (procFace : F → Except E (List W)) (sortW : List W → List W)
    (procWire : W → Except E (List C)) (faces : List F) :
    ((∃ f ∈ faces, ∃ e, procFace f = .error e) →
      (∃ e, buildPathMedialE procFace sortW procWire faces = .error e) ∧
      opExecuteE st procFace sortW procWire faces = st) ∧
    (∀ wss, mapE procFace faces = .ok wss →
      (∃ w ∈ sortW wss.flatten, ∃ e, procWire w = .error e) →
      (∃ e, buildPathMedialE procFace sortW procWire faces = .error e) ∧
      opExecuteE st procFace sortW procWire faces = st) ∧
    (∀ e, buildPathMedialE procFace sortW procWire faces = .error e →
      opExecuteE st procFace sortW procWire faces = st) ∧
    (∀ cmds, buildPathMedialE procFace sortW procWire faces = .ok cmds →
      opExecuteE st procFace sortW procWire faces = { commandlist := some cmds }) ∧
    (opExecuteE st procFace sortW procWire faces ≠ st →
      ∃ cmds, buildPathMedialE procFace sortW procWire faces = .ok cmds ∧
        opExecuteE st procFace sortW procWire faces = { commandlist := some cmds }) := by
  refine ⟨?_, ?_, ?_, ?_, ?_⟩
  · intro hex
    obtain ⟨e, he⟩ := mapE_error_of_mem_error procFace faces hex
    have hbuild : buildPathMedialE procFace sortW procWire faces = .error e := by
      unfold buildPathMedialE
      rw [he]
    exact ⟨⟨e, hbuild⟩, by unfold opExecuteE; rw [hbuild]⟩
  · intro wss hfacesOk hex
    obtain ⟨e, he⟩ := mapE_error_of_mem_error procWire (sortW wss.flatten) hex
    have hbuild : buildPathMedialE procFace sortW procWire faces = .error e := by
      unfold buildPathMedialE
      simp only [hfacesOk, he]
    exact ⟨⟨e, hbuild⟩, by unfold opExecuteE; rw [hbuild]⟩
  · intro e he
    unfold opExecuteE
    rw [he]
  · intro cmds hok
    unfold opExecuteE
    rw [hok]
  · intro hne
    cases hb : buildPathMedialE procFace sortW procWire faces with
    | error e =>
      exfalso
      apply hne
      unfold opExecuteE
      rw [hb]
    | ok cmds =>
      refine ⟨cmds, rfl, ?_⟩
      unfold opExecuteE
      rw [hb]

/-- C7 witness: with two regions where the second raises, and with two
collected wires where the second raises during path building, the state
(holding output committed by an earlier successful run) is left untouched. -/
theorem opExecute_all_or_nothing_witness :
    opExecuteE (OpState.mk (some [9]))
      (fun n : Nat => if n = 1 then Except.error () else Except.ok [n])
      id (fun w : Nat => Except.ok [w]) [0, 1] = OpState.mk (some [9]) ∧
    opExecuteE (OpState.mk (some [9]))
      (fun n : Nat => Except.ok [n])
      id (fun w : Nat => if w = 1 then Except.error () else Except.ok [w]) [0, 1]
      = OpState.mk (some [9]) := by
  constructor
  · exact (opExecute_all_or_nothing (OpState.mk (some [9]))
      (fun n : Nat => if n = 1 then Except.error () else Except.ok [n])
      id (fun w : Nat => Except.ok [w]) [0, 1]).1
      ⟨1, by decide, (), rfl⟩ |>.2
  · exact ((opExecute_all_or_nothing (OpState.mk (some [9]))
      (fun n : Nat => Except.ok [n])
      id (fun w : Nat => if w = 1 then Except.error () else Except.ok [w]) [0, 1]).2.1
      [[0], [1]] rfl ⟨1, by decide, (), rfl⟩).2

/-! ## Depth rounding (C10) -/

/-- C10: every endpoint depth used to build a 3D path edge is the calculator
result rounded to 4 decimal places: _getPartEdge resolves each endpoint
clearance width w to round(WidthToDepth(w), 4), so every emitted z-coordinate
is an integer multiple of 1/10000 — and this genuinely differs from the exact
calculator output (e.g. at 1/30000). -/
theorem depth_rounding_spec :
    (∀ (dist : Real × Real) (widthToDepth : Real → Real),
      (getPartEdge dist widthToDepth).zBegin = pyRound4 (widthToDepth dist.1) ∧
      (getPartEdge dist widthToDepth).zEnd = pyRound4 (widthToDepth dist.2)) ∧
    (∀ x : Real, ∃ n : Int, pyRound4 x = (n : Real) / 10000) ∧
    pyRound4 (1 / 30000) ≠ 1 / 30000 := by
  refine ⟨fun dist w => ⟨rfl, rfl⟩, fun x => ⟨roundHalfEven (x * 10000), rfl⟩, ?_⟩
  have harg : (1 / 30000 : Real) * 10000 = 1 / 3 := by norm_num
  have hfloor : ⌊(1 / 3 : Real)⌋ = 0 := by
    apply Int.floor_eq_zero_iff.mpr
    constructor <;> norm_num
  have hfract : Int.fract (1 / 3 : Real) = 1 / 3 := by
    unfold Int.fract
    rw [hfloor]
    norm_num
  have hround : roundHalfEven ((1 / 30000 : Real) * 10000) = 0 := by
    rw [harg]
    unfold roundHalfEven
    rw [hfract, if_pos (by norm_num : (1 / 3 : Real) < 1 / 2), hfloor]
  unfold pyRound4
  rw [hround]
  norm_num

/-! ## simplify_edges pairing (C9) -/

theorem insertIdx_len_sub_one (l : List Pt3) (x a : Pt3) :
    (l ++ [x]).insertIdx ((l ++ [x]).length - 1) a = l ++ [a, x] := by
  induction l with
  | nil => rfl
  | cons y l ih =>
    rw [List.cons_append]
    have hlen : (y :: (l ++ [x])).length - 1 = ((l ++ [x]).length - 1) + 1 := by
      simp
    rw [hlen, List.insertIdx_succ_cons, ih]
    rfl

theorem getD_concat_length (l : List Pt3) (x : Pt3) :
    (l ++ [x]).getD ((l ++ [x]).length - 1) default = x := by
  have hlen : (l ++ [x]).length - 1 = l.length := by simp
  rw [hlen, List.getD_eq_getElem?_getD, List.getElem?_concat_length]
  rfl

theorem pairUp_flatten_of_even :
    ∀ (n : Nat) (l : List Pt3), l.length ≤ n → l.length % 2 = 0 →
      ((pairUp l).map (fun p => [p.1, p.2])).flatten = l := by
  intro n
  induction n with
  | zero =>
    intro l hl _
    have : l = [] := List.length_eq_zero.mp (Nat.le_zero.mp hl)
    subst this
    rfl
  | succ n ih =>
    intro l hl hev
    match l with
    | [] => rfl
    | [x] => simp at hev
    | x :: y :: rest =>
      have h1 : rest.length ≤ n := by
        simp only [List.length_cons] at hl
        omega
      have h2 : rest.length % 2 = 0 := by
        simp only [List.length_cons] at hev
        omega
      simp only [pairUp, List.map_cons, List.flatten_cons, ih rest h1 h2]
      rfl

/-- C9: in simplify_edges, whenever the simplified point list has odd length
(and at least two points), the midpoint of its last two points is inserted
between them, so the final point list has even length, the first and last
points of the input polyline are preserved (given that the simplifier
preserves them — modelled from the spec for the external
PathUtils.simplify3dLine), and the output decomposes exactly into whole
2-point segments (point 2i with point 2i+1), never leaving a dangling
unpaired point. -/
theorem simplify_edges_spec :
    (∀ (front : List Pt3) (lastp : Pt3), ((front ++ [lastp]).length) % 2 = 1 →
      oddFix (front ++ [lastp])
        = front ++ [median ((front ++ [lastp]).getD ((front ++ [lastp]).length - 2) default)
            lastp, lastp]) ∧
    (∀ sp : List Pt3, 2 ≤ sp.length → (oddFix sp).length % 2 = 0) ∧
    (∀ sp : List Pt3, 2 ≤ sp.length →
      (oddFix sp).head? = sp.head? ∧ (oddFix sp).getLast? = sp.getLast?) ∧
    (∀ sp : List Pt3, sp.length % 2 = 0 →
      ((pairUp sp).map (fun p => [p.1, p.2])).flatten = sp) ∧
    (∀ (simp3d : List Pt3 → List Pt3) (e0 : Pt3 × Pt3) (rest : List (Pt3 × Pt3)),
      simplifyEdges simp3d (e0 :: rest)
        = pairUp (oddFix (simp3d (e0.1 :: (e0 :: rest).map (fun e => e.2))))) := by
  have hodd : ∀ (front : List Pt3) (lastp : Pt3), ((front ++ [lastp]).length) % 2 = 1 →
      oddFix (front ++ [lastp])
        = front ++ [median ((front ++ [lastp]).getD ((front ++ [lastp]).length - 2) default)
            lastp, lastp] := by
    intro front lastp h1
    unfold oddFix
    rw [if_pos (by omega)]
    rw [insertIdx_len_sub_one]
    have hl : (front ++ [lastp]).getD ((front ++ [lastp]).length - 1) default = lastp :=
      getD_concat_length front lastp
    rw [hl]
  refine ⟨hodd, ?_, ?_, fun sp => pairUp_flatten_of_even sp.length sp le_rfl, fun s e r => rfl⟩
  · intro sp h2
    unfold oddFix
    by_cases hpar : sp.length % 2 ≠ 0
    · rw [if_pos hpar]
      rw [List.length_insertIdx _ _ (by omega)]
      omega
    · rw [if_neg hpar]
      omega
  · intro sp h2
    rcases List.eq_nil_or_concat sp with rfl | ⟨front, lastp, rfl⟩
    · simp at h2
    · simp only [List.concat_eq_append] at h2 ⊢
      by_cases hpar : (front ++ [lastp]).length % 2 = 1
      · rw [hodd front lastp hpar]
        constructor
        · match front with
          | [] => simp at h2
          | f :: fr => rfl
        · rw [List.getLast?_concat]
          have : (front ++ [median ((front ++ [lastp]).getD ((front ++ [lastp]).length - 2)
              default) lastp, lastp])
              = (front ++ [median ((front ++ [lastp]).getD ((front ++ [lastp]).length - 2)
                default) lastp]) ++ [lastp] := by
            simp
          rw [this, List.getLast?_concat]
      · unfold oddFix
        rw [if_neg (by omega)]
        exact ⟨rfl, rfl⟩

/-! ## Wire sorting (C3) -/

theorem closestStep_fold_spec (start : Pt) :
    ∀ (l : List (Nat × Pt)) (i : Nat) (d : Int),
      ∃ j e, List.foldl (closestStep start) (some i, some d) l = (some j, some e) ∧
        e ≤ d ∧ (∀ kv ∈ l, e ≤ distSq start kv.2) ∧
        ((j = i ∧ e = d) ∨ ∃ p, (j, p) ∈ l ∧ e = distSq start p) := by
  intro l
  induction l with
  | nil =>
    intro i d
    exact ⟨i, d, rfl, le_rfl, fun kv h => absurd h (List.not_mem_nil kv), .inl ⟨rfl, rfl⟩⟩
  | cons kv l ih =>
    intro i d
    by_cases hlt : distSq start kv.2 < d
    · obtain ⟨j, e, hfold, hle, hall, hsrc⟩ := ih kv.1 (distSq start kv.2)
      refine ⟨j, e, ?_, le_of_lt (lt_of_le_of_lt hle hlt), ?_, ?_⟩
      · rw [List.foldl_cons]
        have : closestStep start (some i, some d) kv = (some kv.1, some (distSq start kv.2)) := by
          simp [closestStep, if_pos hlt]
        rw [this, hfold]
      · intro kv2 h2
        rcases List.mem_cons.mp h2 with rfl | h2
        · exact hle
        · exact hall kv2 h2
      · rcases hsrc with ⟨rfl, rfl⟩ | ⟨p, hp, he⟩
        · exact .inr ⟨kv.2, List.mem_cons_self _ _, rfl⟩
        · exact .inr ⟨p, List.mem_cons_of_mem _ hp, he⟩
    · obtain ⟨j, e, hfold, hle, hall, hsrc⟩ := ih i d
      refine ⟨j, e, ?_, hle, ?_, ?_⟩
      · rw [List.foldl_cons]
        have : closestStep start (some i, some d) kv = (some i, some d) := by
          simp [closestStep, if_neg hlt]
        rw [this, hfold]
      · intro kv2 h2
        rcases List.mem_cons.mp h2 with rfl | h2
        · exact le_trans hle (not_lt.mp hlt)
        · exact hall kv2 h2
      · rcases hsrc with ⟨rfl, rfl⟩ | ⟨p, hp, he⟩
        · exact .inl ⟨rfl, rfl⟩
        · exact .inr ⟨p, List.mem_cons_of_mem _ hp, he⟩

theorem closestTo_spec (start : Pt) (l : List (Nat × Pt)) (hne : l ≠ []) :
    ∃ j e p, closestTo start l = (some j, some e) ∧ (j, p) ∈ l ∧
      e = distSq start p ∧ ∀ kv ∈ l, e ≤ distSq start kv.2 := by
  match l with
  | [] => exact absurd rfl hne
  | kv :: l =>
    obtain ⟨j, e, hfold, hle, hall, hsrc⟩ := closestStep_fold_spec start l kv.1 (distSq start kv.2)
    have hstep : closestTo start (kv :: l) = List.foldl (closestStep start)
        (some kv.1, some (distSq start kv.2)) l := by
      simp [closestTo, List.foldl_cons, closestStep]
    rcases hsrc with ⟨rfl, rfl⟩ | ⟨p, hp, he⟩
    · refine ⟨kv.1, distSq start kv.2, kv.2, by rw [hstep, hfold], List.mem_cons_self _ _, rfl, ?_⟩
      intro kv2 h2
      rcases List.mem_cons.mp h2 with rfl | h2
      · exact le_rfl
      · exact hall kv2 h2
    · refine ⟨j, e, p, by rw [hstep, hfold], List.mem_cons_of_mem _ hp, he, ?_⟩
      intro kv2 h2
      rcases List.mem_cons.mp h2 with rfl | h2
      · exact hle
      · exact hall kv2 h2

theorem perm_cons_delKey :
    ∀ (bg : List (Nat × Pt)) (j : Nat) (p : Pt), (j, p) ∈ bg →
      (bg.map Prod.fst).Nodup → bg.Perm ((j, p) :: delKey bg j) := by
  intro bg
  induction bg with
  | nil => intro j p h; exact absurd h (List.not_mem_nil _)
  | cons kv t ih =>
    intro j p hmem hnd
    rw [List.map_cons, List.nodup_cons] at hnd
    rcases List.mem_cons.mp hmem with rfl | hmem2
    · have hfil : delKey ((j, p) :: t) j = t := by
        unfold delKey
        rw [List.filter_cons]
        simp only [bne_self_eq_false]
        rw [if_neg (by simp)]
        apply List.filter_eq_self.mpr
        intro kv2 h2
        have hne : kv2.1 ≠ j := by
          intro heq
          have hj : kv2.1 ∈ t.map Prod.fst := List.mem_map_of_mem Prod.fst h2
          rw [heq] at hj
          exact hnd.1 hj
        simpa using hne
      rw [hfil]
    · have hkj : kv.1 ≠ j := by
        intro heq
        have hj : j ∈ t.map Prod.fst := by
          have := List.mem_map_of_mem Prod.fst hmem2
          exact this
        rw [← heq] at hj
        exact hnd.1 hj
      have hfil : delKey (kv :: t) j = kv :: delKey t j := by
        unfold delKey
        rw [List.filter_cons, if_pos (by simpa using hkj)]
      rw [hfil]
      exact (List.Perm.cons kv (ih j p hmem2 hnd.2)).trans (List.Perm.swap _ _ _)

theorem delKey_map_fst (j : Nat) :
    ∀ m : List (Nat × Pt), (delKey m j).map Prod.fst = (m.map Prod.fst).filter (fun k => k != j) := by
  intro m
  induction m with
  | nil => rfl
  | cons kv t ih =>
    unfold delKey at ih ⊢
    rw [List.filter_cons, List.map_cons, List.filter_cons]
    by_cases h : (kv.1 != j) = true
    · rw [if_pos h, List.map_cons, ih, if_pos h]
    · rw [if_neg h, ih, if_neg h]

theorem sortLoop_perm (vd : List HalfEdge) (wires : List (List HalfEdge)) :
    ∀ (fuel : Nat) (start : Pt) (bg en : List (Nat × Pt)),
      bg.length ≤ fuel → bg.map Prod.fst = en.map Prod.fst →
      (bg.map Prod.fst).Nodup →
      ∃ oris : Nat → Bool,
        (sortLoop vd wires fuel start bg en).Perm
          (bg.map (fun kv => if oris kv.1 then wires.getD kv.1 []
            else (wires.getD kv.1 []).reverse.map (fun e => getTwin vd e))) := by
  intro fuel
  induction fuel with
  | zero =>
    intro start bg en hlen _ _
    have : bg = [] := List.length_eq_zero.mp (Nat.le_zero.mp hlen)
    subst this
    exact ⟨fun _ => true, List.Perm.refl _⟩
  | succ fuel ih =>
    intro start bg en hlen hkeys hnd
    cases hbgc : bg with
    | nil =>
      subst hbgc
      have hen : en = [] := by
        rw [List.map_nil] at hkeys
        cases en with
        | nil => rfl
        | cons kv t => exact absurd hkeys.symm (by simp)
      subst hen
      exact ⟨fun _ => true, by simp [sortLoop, closestTo]⟩
    | cons kvb bgt =>
      subst hbgc
      have hen : en ≠ [] := by
        intro h
        rw [h] at hkeys
        exact absurd hkeys (by simp)
      obtain ⟨bi, bl, bp, hbeq, hbmem, hbd, hball⟩ :=
        closestTo_spec start (kvb :: bgt) (by simp)
      obtain ⟨ei, el, ep, heeq, hemem, hed, heall⟩ := closestTo_spec start en hen
      by_cases hcmp : bl < el
      · -- forward branch: wire bi is appended unreversed
        have hperm1 : (kvb :: bgt).Perm ((bi, bp) :: delKey (kvb :: bgt) bi) :=
          perm_cons_delKey _ bi bp hbmem hnd
        have hnd2 : ((delKey (kvb :: bgt) bi).map Prod.fst).Nodup := by
          rw [delKey_map_fst]
          exact List.Nodup.filter _ hnd
        have hkeys2 : (delKey (kvb :: bgt) bi).map Prod.fst = (delKey en bi).map Prod.fst := by
          rw [delKey_map_fst, delKey_map_fst, hkeys]
        have hlen2 : (delKey (kvb :: bgt) bi).length ≤ fuel := by
          have hpl := hperm1.length_eq
          simp only [List.length_cons] at hpl hlen
          omega
        obtain ⟨oris2, hperm2⟩ := ih (lookupPt en bi) (delKey (kvb :: bgt) bi)
          (delKey en bi) hlen2 hkeys2 hnd2
        refine ⟨fun i => if i = bi then true else oris2 i, ?_⟩
        have hunfold : sortLoop vd wires (fuel + 1) start (kvb :: bgt) en
            = wires.getD bi [] :: sortLoop vd wires fuel (lookupPt en bi)
                (delKey (kvb :: bgt) bi) (delKey en bi) := by
          rw [sortLoop, hbeq, heeq]
          exact if_pos hcmp
        rw [hunfold]
        refine List.Perm.trans ?_ (List.Perm.map _ hperm1).symm
        rw [List.map_cons]
        beta_reduce
        rw [if_pos rfl]
        rw [if_pos rfl]
        apply List.Perm.cons
        have hmapeq : (delKey (kvb :: bgt) bi).map
              (fun kv : Nat × Pt =>
                if (if kv.1 = bi then true else oris2 kv.1) = true then wires.getD kv.1 []
                else (wires.getD kv.1 []).reverse.map (fun e => getTwin vd e))
            = (delKey (kvb :: bgt) bi).map
              (fun kv => if oris2 kv.1 then wires.getD kv.1 []
                else (wires.getD kv.1 []).reverse.map (fun e => getTwin vd e)) := by
          apply List.map_congr_left
          intro kv hkv
          have hne : kv.1 ≠ bi := by
            unfold delKey at hkv
            have := List.of_mem_filter hkv
            simpa using this
          rw [if_neg hne]
        rw [hmapeq]
        exact hperm2
      · -- reversed branch: wire ei is appended reversed
        have heibg : ei ∈ (kvb :: bgt).map Prod.fst := by
          rw [hkeys]
          exact List.mem_map_of_mem Prod.fst hemem
        obtain ⟨kv2, hkv2, hfst⟩ := List.mem_map.mp heibg
        have hbmem2 : (ei, kv2.2) ∈ kvb :: bgt := by
          have hkv2eq : kv2 = (ei, kv2.2) := by
            rw [← hfst]
          rwa [hkv2eq] at hkv2
        have hperm1 : (kvb :: bgt).Perm ((ei, kv2.2) :: delKey (kvb :: bgt) ei) :=
          perm_cons_delKey _ ei kv2.2 hbmem2 hnd
        have hnd2 : ((delKey (kvb :: bgt) ei).map Prod.fst).Nodup := by
          rw [delKey_map_fst]
          exact List.Nodup.filter _ hnd
        have hkeys2 : (delKey (kvb :: bgt) ei).map Prod.fst = (delKey en ei).map Prod.fst := by
          rw [delKey_map_fst, delKey_map_fst, hkeys]
        have hlen2 : (delKey (kvb :: bgt) ei).length ≤ fuel := by
          have hpl := hperm1.length_eq
          simp only [List.length_cons] at hpl hlen
          omega
        obtain ⟨oris2, hperm2⟩ := ih (lookupPt (kvb :: bgt) ei) (delKey (kvb :: bgt) ei)
          (delKey en ei) hlen2 hkeys2 hnd2
        refine ⟨fun i => if i = ei then false else oris2 i, ?_⟩
        have hunfold : sortLoop vd wires (fuel + 1) start (kvb :: bgt) en
            = ((wires.getD ei []).reverse.map (fun e => getTwin vd e)) ::
                sortLoop vd wires fuel (lookupPt (kvb :: bgt) ei)
                  (delKey (kvb :: bgt) ei) (delKey en ei) := by
          rw [sortLoop, hbeq, heeq]
          exact if_neg hcmp
        rw [hunfold]
        refine List.Perm.trans ?_ (List.Perm.map _ hperm1).symm
        rw [List.map_cons]
        beta_reduce
        rw [if_pos rfl]
        rw [if_neg (by simp : ¬ (false = true))]
        apply List.Perm.cons
        have hmapeq : (delKey (kvb :: bgt) ei).map
              (fun kv : Nat × Pt =>
                if (if kv.1 = ei then false else oris2 kv.1) = true then wires.getD kv.1 []
                else (wires.getD kv.1 []).reverse.map (fun e => getTwin vd e))
            = (delKey (kvb :: bgt) ei).map
              (fun kv => if oris2 kv.1 then wires.getD kv.1 []
                else (wires.getD kv.1 []).reverse.map (fun e => getTwin vd e)) := by
          apply List.map_congr_left
          intro kv hkv
          have hne : kv.1 ≠ ei := by
            unfold delKey at hkv
            have := List.of_mem_filter hkv
            simpa using this
          rw [if_neg hne]
        rw [hmapeq]
        exact hperm2

/-- C3: at every step of _sortVoronoiWires, the wire appended next is one
whose start or end endpoint is at minimum distance from the current position
among all remaining start and end endpoints; when the chosen endpoint is an
end endpoint the wire is appended reversed (each edge replaced by its twin,
in reverse order); the current position becomes the appended wire's last
point and the wire leaves the pool; the output is a permutation of the input
wires up to reversal; and on three wires with disjoint endpoints whose
reference point is strictly nearest wire B's end endpoint, the first output
wire is B reversed.  (Distances are compared as squares, which preserves all
comparisons of Euclidean distances.) -/
theorem sortVoronoiWires_spec :
    (∀ (vd : List HalfEdge) (wires : List (List HalfEdge)) (fuel : Nat) (start : Pt)
      (bg en : List (Nat × Pt)), bg ≠ [] → en ≠ [] →
      ∃ (j : Nat) (ori : Bool) (d : Int) (p : Pt),
        ((ori = true ∧ (j, p) ∈ bg) ∨ (ori = false ∧ (j, p) ∈ en)) ∧
        d = distSq start p ∧
        (∀ kv ∈ bg, d ≤ distSq start kv.2) ∧
        (∀ kv ∈ en, d ≤ distSq start kv.2) ∧
        sortLoop vd wires (fuel + 1) start bg en
          = (if ori then wires.getD j []
              else (wires.getD j []).reverse.map (fun e => getTwin vd e)) ::
            sortLoop vd wires fuel
              (if ori then lookupPt en j else lookupPt bg j)
              (delKey bg j) (delKey en j)) ∧
    (∀ (vd : List HalfEdge) (wires : List (List HalfEdge)) (fuel : Nat) (start : Pt)
      (bg en : List (Nat × Pt)),
      bg.length ≤ fuel → bg.map Prod.fst = en.map Prod.fst → (bg.map Prod.fst).Nodup →
      ∃ oris : Nat → Bool,
        (sortLoop vd wires fuel start bg en).Perm
          (bg.map (fun kv => if oris kv.1 then wires.getD kv.1 []
            else (wires.getD kv.1 []).reverse.map (fun e => getTwin vd e)))) ∧
    (sortVoronoiWires sVd sPos sWires (5, 5)).head? = some [⟨3, 2, 3, 2, 5⟩] := by
  refine ⟨?_, fun vd wires fuel start bg en => sortLoop_perm vd wires fuel start bg en, ?_⟩
  · intro vd wires fuel start bg en hbg hen
    obtain ⟨bi, bl, bp, hbeq, hbmem, hbd, hball⟩ := closestTo_spec start bg hbg
    obtain ⟨ei, el, ep, heeq, hemem, hed, heall⟩ := closestTo_spec start en hen
    by_cases hcmp : bl < el
    · refine ⟨bi, true, bl, bp, .inl ⟨rfl, hbmem⟩, hbd, hball, ?_, ?_⟩
      · intro kv h
        exact le_trans (le_of_lt hcmp) (heall kv h)
      · rw [sortLoop, hbeq, heeq]
        simp only [if_pos hcmp]
        rfl
    · refine ⟨ei, false, el, ep, .inr ⟨rfl, hemem⟩, hed, ?_, heall, ?_⟩
      · intro kv h
        exact le_trans (not_lt.mp hcmp) (hball kv h)
      · rw [sortLoop, hbeq, heeq]
        simp only [if_neg hcmp]
        rfl
  · decide

/-- C3 witness: the step part applied at the concrete three-wire state. -/
theorem sortVoronoiWires_spec_witness :
    ∃ (j : Nat) (ori : Bool) (d : Int) (p : Pt),
      ((ori = true ∧ (j, p) ∈ [((0 : Nat), ((0 : Int), (0 : Int)))]) ∨
        (ori = false ∧ (j, p) ∈ [((0 : Nat), ((1 : Int), (0 : Int)))])) ∧
      d = distSq (5, 5) p ∧
      (∀ kv ∈ [((0 : Nat), ((0 : Int), (0 : Int)))], d ≤ distSq (5, 5) kv.2) ∧
      (∀ kv ∈ [((0 : Nat), ((1 : Int), (0 : Int)))], d ≤ distSq (5, 5) kv.2) ∧
      sortLoop sVd sWires 1 (5, 5) [((0 : Nat), ((0 : Int), (0 : Int)))]
          [((0 : Nat), ((1 : Int), (0 : Int)))]
        = (if ori then sWires.getD j []
            else (sWires.getD j []).reverse.map (fun e => getTwin sVd e)) ::
          sortLoop sVd sWires 0
            (if ori then lookupPt [((0 : Nat), ((1 : Int), (0 : Int)))] j
              else lookupPt [((0 : Nat), ((0 : Int), (0 : Int)))] j)
            (delKey [((0 : Nat), ((0 : Int), (0 : Int)))] j)
            (delKey [((0 : Nat), ((1 : Int), (0 : Int)))] j) :=
  sortVoronoiWires_spec.1 sVd sWires 0 (5, 5)
    [((0 : Nat), ((0 : Int), (0 : Int)))] [((0 : Nat), ((1 : Int), (0 : Int)))]
    (by decide) (by decide)


/-! ## Association-list lemmas for the vertex map -/

theorem find?_cons_key (pred : Nat × List HalfEdge → Bool) (q : Nat × List HalfEdge)
    (t : VMap) : (q :: t).find? pred = if pred q then some q else t.find? pred := by
  cases h : pred q
  · rw [if_neg (by simp [h])]
    exact List.find?_cons_of_neg t (by simp [h])
  · rw [if_pos (by simp [h])]
    exact List.find?_cons_of_pos t h

theorem mget_cons (q : Nat × List HalfEdge) (t : VMap) (v : Nat) :
    mget (q :: t) v = if q.1 == v then q.2 else mget t v := by
  unfold mget
  rw [find?_cons_key (fun p => p.1 == v) q t]
  by_cases h : (q.1 == v) = true
  · rw [if_pos h, if_pos h]
  · rw [if_neg h, if_neg h]

theorem mset_cons_found (q : Nat × List HalfEdge) (t : VMap) (v : Nat) (l : List HalfEdge)
    (hany : ((q :: t).any (fun p => p.1 == v)) = true) :
    mset (q :: t) v l
      = (if q.1 == v then (v, l) else q) :: (t.map (fun p => if p.1 == v then (v, l) else p)) := by
  unfold mset
  rw [if_pos hany, List.map_cons]

theorem mget_mset_self (m : VMap) (v : Nat) (l : List HalfEdge) :
    mget (mset m v l) v = l := by
  unfold mset
  by_cases hany : m.any (fun p => p.1 == v) = true
  · rw [if_pos hany]
    induction m with
    | nil => simp at hany
    | cons p t ih =>
      rw [List.any_cons] at hany
      rw [List.map_cons]
      by_cases hp : (p.1 == v) = true
      · rw [if_pos hp, mget_cons]
        rw [if_pos (by simp)]
      · rw [if_neg hp, mget_cons, if_neg hp]
        apply ih
        simpa [hp] using hany
  · rw [if_neg hany]
    have hall : ∀ p ∈ m, (p.1 == v) = false := by
      intro p hp
      cases h : (p.1 == v)
      · rfl
      · exact absurd (List.any_eq_true.mpr ⟨p, hp, h⟩) hany
    clear hany
    induction m with
    | nil =>
      rw [List.nil_append, mget_cons, if_pos (by simp)]
    | cons p t ih =>
      rw [List.cons_append, mget_cons, if_neg (by simp [hall p (List.mem_cons_self p t)])]
      exact ih (fun q hq => hall q (List.mem_cons_of_mem p hq))

theorem mget_mset_ne (m : VMap) (v : Nat) (l : List HalfEdge) (u : Nat) (h : u ≠ v) :
    mget (mset m v l) u = mget m u := by
  have hvu : (v == u) = false := by
    simp only [beq_eq_false_iff_ne]
    exact fun hh => h hh.symm
  unfold mset
  by_cases hany : m.any (fun p => p.1 == v) = true
  · rw [if_pos hany]
    clear hany
    induction m with
    | nil => rfl
    | cons p t ih =>
      rw [List.map_cons, mget_cons, mget_cons]
      by_cases hp : (p.1 == v) = true
      · have hpv : p.1 = v := by simpa using hp
        rw [if_pos hp]
        have h1 : (((v, l) : Nat × List HalfEdge).1 == u) = false := hvu
        have h2 : (p.1 == u) = false := by rw [hpv]; exact hvu
        rw [if_neg (by simp [h1]), if_neg (by simp [h2])]
        exact ih
      · rw [if_neg hp]
        by_cases hq : (p.1 == u) = true
        · rw [if_pos hq, if_pos hq]
        · rw [if_neg hq, if_neg hq]
          exact ih
  · rw [if_neg hany]
    clear hany
    induction m with
    | nil =>
      rw [List.nil_append, mget_cons, if_neg (by simp [hvu])]
    | cons p t ih =>
      rw [List.cons_append, mget_cons, mget_cons]
      by_cases hq : (p.1 == u) = true
      · rw [if_pos hq, if_pos hq]
      · rw [if_neg hq, if_neg hq]
        exact ih

theorem any_key_iff (m : VMap) (v : Nat) :
    m.any (fun p => p.1 == v) = true ↔ v ∈ m.map Prod.fst := by
  rw [List.any_eq_true]
  constructor
  · rintro ⟨p, hp, hpv⟩
    have hh : p.1 = v := by simpa using hpv
    rw [← hh]
    exact List.mem_map_of_mem Prod.fst hp
  · intro h
    obtain ⟨p, hp, hpv⟩ := List.mem_map.mp h
    exact ⟨p, hp, by simp [hpv]⟩

theorem mset_keys_of_mem (m : VMap) (v : Nat) (l : List HalfEdge)
    (hk : v ∈ m.map Prod.fst) : (mset m v l).map Prod.fst = m.map Prod.fst := by
  unfold mset
  rw [if_pos ((any_key_iff m v).mpr hk)]
  clear hk
  induction m with
  | nil => rfl
  | cons p t ih =>
    rw [List.map_cons, List.map_cons, List.map_cons]
    by_cases hp : (p.1 == v) = true
    · have hpv : p.1 = v := by simpa using hp
      rw [if_pos hp, ih]
      simp [hpv]
    · rw [if_neg hp, ih]

theorem mget_ne_nil_key (m : VMap) (v : Nat) (h : mget m v ≠ []) :
    v ∈ m.map Prod.fst := by
  unfold mget at h
  cases hf : m.find? (fun p => p.1 == v) with
  | none => rw [hf] at h; exact absurd rfl h
  | some p =>
    have hmem := List.mem_of_find?_eq_some hf
    have hpv : p.1 = v := by simpa using List.find?_some hf
    rw [← hpv]
    exact List.mem_map_of_mem Prod.fst hmem

theorem mget_entry (m : VMap) (v : Nat) (h : mget m v ≠ []) :
    ∃ p ∈ m, p.1 = v ∧ p.2 = mget m v := by
  unfold mget at h ⊢
  cases hf : m.find? (fun p => p.1 == v) with
  | none => rw [hf] at h; exact absurd rfl h
  | some p =>
    exact ⟨p, List.mem_of_find?_eq_some hf, by simpa using List.find?_some hf, rfl⟩

theorem entry_mget (m : VMap) (p : Nat × List HalfEdge) (hp : p ∈ m)
    (hnd : (m.map Prod.fst).Nodup) : mget m p.1 = p.2 := by
  induction m with
  | nil => exact absurd hp (List.not_mem_nil p)
  | cons q t ih =>
    rw [List.map_cons, List.nodup_cons] at hnd
    rcases List.mem_cons.mp hp with rfl | hpt
    · rw [mget_cons, if_pos (by simp)]
    · have hq : (q.1 == p.1) = false := by
        have hne : q.1 ≠ p.1 := by
          intro heq
          exact hnd.1 (heq ▸ List.mem_map_of_mem Prod.fst hpt)
        simpa using hne
      rw [mget_cons, if_neg (by simp [hq])]
      exact ih hpt hnd.2

theorem msize_cons (q : Nat × List HalfEdge) (t : VMap) :
    msize (q :: t) = q.2.length + msize t := by
  unfold msize
  rw [List.map_cons, List.sum_cons]

theorem msize_mset (m : VMap) (v : Nat) (l : List HalfEdge)
    (hnd : (m.map Prod.fst).Nodup) (hk : v ∈ m.map Prod.fst) :
    msize (mset m v l) + (mget m v).length = msize m + l.length := by
  induction m with
  | nil => exact absurd hk (by simp)
  | cons p t ih =>
    rw [List.map_cons, List.nodup_cons] at hnd
    have hany : ((p :: t).any (fun q => q.1 == v)) = true := (any_key_iff _ v).mpr hk
    rw [mset_cons_found p t v l hany, mget_cons]
    by_cases hp : (p.1 == v) = true
    · have hpv : p.1 = v := by simpa using hp
      have hmap : t.map (fun q => if q.1 == v then (v, l) else q) = t := by
        have hcongr : t.map (fun q => if q.1 == v then (v, l) else q) = t.map id := by
          apply List.map_congr_left
          intro q hq
          have hqv : (q.1 == v) = false := by
            have hne : q.1 ≠ v := by
              intro heq
              exact hnd.1 (by rw [hpv, ← heq]; exact List.mem_map_of_mem Prod.fst hq)
            simpa using hne
          rw [if_neg (by simp [hqv])]
          rfl
        rw [hcongr, List.map_id]
      rw [if_pos hp, if_pos hp, hmap, msize_cons, msize_cons]
      have hred : ((v, l) : Nat × List HalfEdge).2.length = l.length := rfl
      rw [hred]
      omega
    · have hkt : v ∈ t.map Prod.fst := by
        rcases List.mem_map.mp hk with ⟨q, hq, hqv⟩
        rcases List.mem_cons.mp hq with rfl | hqt
        · exact absurd (by simp [hqv]) hp
        · rw [← hqv]; exact List.mem_map_of_mem Prod.fst hqt
      have hanyt : (t.any (fun q => q.1 == v)) = true := (any_key_iff _ v).mpr hkt
      have hmsett : mset t v l = t.map (fun q => if q.1 == v then (v, l) else q) := by
        unfold mset
        rw [if_pos hanyt]
      rw [if_neg hp, if_neg hp, msize_cons, msize_cons]
      have := ih hnd.2 hkt
      rw [hmsett] at this
      omega

/-! ## buildVertex lemmas -/

theorem buildVertex_step_mget (m : VMap) (e : HalfEdge) (hab : e.a ≠ e.b) (v : Nat) :
    mget ([e.a, e.b].foldl (fun m2 u => mset m2 u (mget m2 u ++ [e])) m) v
      = if e.a = v ∨ e.b = v then mget m v ++ [e] else mget m v := by
  have hstep : [e.a, e.b].foldl (fun m2 u => mset m2 u (mget m2 u ++ [e])) m
      = mset (mset m e.a (mget m e.a ++ [e])) e.b
          (mget (mset m e.a (mget m e.a ++ [e])) e.b ++ [e]) := rfl
  rw [hstep,
    mget_mset_ne m e.a (mget m e.a ++ [e]) e.b (fun h => hab h.symm)]
  by_cases hva : v = e.a
  · subst hva
    rw [if_pos (.inl rfl)]
    rw [mget_mset_ne (mset m e.a (mget m e.a ++ [e])) e.b (mget m e.b ++ [e]) e.a hab,
      mget_mset_self]
  · by_cases hvb : v = e.b
    · subst hvb
      rw [if_pos (.inr rfl)]
      rw [mget_mset_self]
    · rw [if_neg (by tauto)]
      rw [mget_mset_ne _ e.b _ v hvb, mget_mset_ne _ e.a _ v hva]

theorem buildVertex_foldl_mget :
    ∀ (edges : List HalfEdge) (m : VMap), (∀ e ∈ edges, e.a ≠ e.b) → ∀ v : Nat,
      mget (edges.foldl
          (fun m2 e => [e.a, e.b].foldl (fun m3 u => mset m3 u (mget m3 u ++ [e])) m2) m) v
        = mget m v ++ edges.filter (fun e => e.a == v || e.b == v) := by
  intro edges
  induction edges with
  | nil => intro m _ v; simp
  | cons e rest ih =>
    intro m hab v
    rw [List.foldl_cons]
    rw [ih _ (fun f hf => hab f (List.mem_cons_of_mem e hf)) v]
    rw [buildVertex_step_mget m e (hab e (List.mem_cons_self e rest)) v]
    rw [List.filter_cons]
    by_cases hv : e.a = v ∨ e.b = v
    · rw [if_pos hv, if_pos (by simpa using hv)]
      simp
    · rw [if_neg hv, if_neg (by simpa using hv)]

theorem buildVertex_mget (edges : List HalfEdge) (hab : ∀ e ∈ edges, e.a ≠ e.b) (v : Nat) :
    mget (buildVertex edges) v = edges.filter (fun e => e.a == v || e.b == v) := by
  unfold buildVertex
  rw [buildVertex_foldl_mget edges [] hab v]
  rfl

theorem mset_keys_cases (m : VMap) (v : Nat) (l : List HalfEdge) :
    (mset m v l).map Prod.fst = m.map Prod.fst ∨
    ((mset m v l).map Prod.fst = m.map Prod.fst ++ [v] ∧ v ∉ m.map Prod.fst) := by
  by_cases hk : v ∈ m.map Prod.fst
  · exact .inl (mset_keys_of_mem m v l hk)
  · right
    refine ⟨?_, hk⟩
    unfold mset
    rw [if_neg (by simpa using fun h => hk ((any_key_iff m v).mp h))]
    simp

theorem buildVertex_keys_nodup (edges : List HalfEdge) :
    ((buildVertex edges).map Prod.fst).Nodup := by
  unfold buildVertex
  have hone : ∀ (m2 : VMap) (u : Nat) (l : List HalfEdge), (m2.map Prod.fst).Nodup →
      ((mset m2 u l).map Prod.fst).Nodup := by
    intro m2 u l h2
    rcases mset_keys_cases m2 u l with heq | ⟨heq, hnot⟩
    · rw [heq]; exact h2
    · rw [heq]
      apply List.Nodup.append h2 (by simp)
      intro x hx hx2
      have hxu : x = u := by simpa using hx2
      subst hxu
      exact hnot hx
  have haux : ∀ (es : List HalfEdge) (m : VMap), (m.map Prod.fst).Nodup →
      ((es.foldl
        (fun m2 e => [e.a, e.b].foldl (fun m3 u => mset m3 u (mget m3 u ++ [e])) m2) m).map
          Prod.fst).Nodup := by
    intro es
    induction es with
    | nil => intro m h; exact h
    | cons e rest ih =>
      intro m h
      rw [List.foldl_cons]
      exact ih _ (hone _ _ _ (hone _ _ _ h))
  exact haux edges [] (by simp)

/-! ## Well-formedness consequences -/

theorem primaryEdges_mem {vd : List HalfEdge} {e : HalfEdge} :
    e ∈ primaryEdges vd ↔ e ∈ vd ∧ e.color = PRIMARY := by
  unfold primaryEdges
  rw [List.mem_filter]
  simp

theorem primaryEdges_sublist (vd : List HalfEdge) : (primaryEdges vd).Sublist vd :=
  List.filter_sublist vd

theorem idx_inj {vd : List HalfEdge} (h : (vd.map (fun e => e.idx)).Nodup) :
    ∀ x ∈ vd, ∀ y ∈ vd, x.idx = y.idx → x = y :=
  List.inj_on_of_nodup_map h

theorem prim_idx_nodup {vd : List HalfEdge} (hwf : WellFormed vd) :
    ((primaryEdges vd).map (fun e => e.idx)).Nodup :=
  List.Nodup.sublist (List.Sublist.map _ (primaryEdges_sublist vd)) hwf.1

theorem getTwin_spec {vd : List HalfEdge} (hwf : WellFormed vd) {e : HalfEdge}
    (he : e ∈ primaryEdges vd) :
    (getTwin vd e).idx = e.twinIdx ∧ (getTwin vd e).twinIdx = e.idx ∧
    (getTwin vd e).a = e.b ∧ (getTwin vd e).b = e.a ∧ (getTwin vd e).color ≠ PRIMARY := by
  obtain ⟨t, ht, h1, h2, h3, h4, h5⟩ := hwf.2.2 e he
  cases hf : vd.find? (fun x => x.idx == e.twinIdx) with
  | none =>
    exfalso
    have := List.find?_eq_none.mp hf t ht
    simp [h1] at this
  | some t2 =>
    have ht2 := List.mem_of_find?_eq_some hf
    have hpred : t2.idx = e.twinIdx := by simpa using List.find?_some hf
    have ht2t : t2 = t := idx_inj hwf.1 t2 ht2 t ht (hpred.trans h1.symm)
    unfold getTwin
    rw [hf]
    subst ht2t
    exact ⟨hpred, h2, h3, h4, h5⟩

theorem twin_idx_ne_self {vd : List HalfEdge} (hwf : WellFormed vd) {e : HalfEdge}
    (he : e ∈ primaryEdges vd) : e.idx ≠ e.twinIdx := by
  obtain ⟨t, ht, h1, _, _, _, h5⟩ := hwf.2.2 e he
  intro heq
  have hevd : e ∈ vd := (primaryEdges_mem.mp he).1
  have hec : e.color = PRIMARY := (primaryEdges_mem.mp he).2
  have : e = t := idx_inj hwf.1 e hevd t ht (heq.trans h1.symm)
  exact h5 (this ▸ hec)

theorem twin_pair_disjoint {vd : List HalfEdge} (hwf : WellFormed vd) {e f : HalfEdge}
    (he : e ∈ primaryEdges vd) (hf : f ∈ primaryEdges vd) (hne : e ≠ f) :
    e.idx ≠ f.idx ∧ e.idx ≠ f.twinIdx ∧ e.twinIdx ≠ f.idx ∧ e.twinIdx ≠ f.twinIdx := by
  obtain ⟨te, hte, he1, he2, _, _, he5⟩ := hwf.2.2 e he
  obtain ⟨tf, htf, hf1, hf2, _, _, hf5⟩ := hwf.2.2 f hf
  have hevd : e ∈ vd := (primaryEdges_mem.mp he).1
  have hfvd : f ∈ vd := (primaryEdges_mem.mp hf).1
  have hec : e.color = PRIMARY := (primaryEdges_mem.mp he).2
  have hfc : f.color = PRIMARY := (primaryEdges_mem.mp hf).2
  refine ⟨?_, ?_, ?_, ?_⟩
  · intro heq
    exact hne (idx_inj hwf.1 e hevd f hfvd heq)
  · intro heq
    have : e = tf := idx_inj hwf.1 e hevd tf htf (heq.trans hf1.symm)
    exact hf5 (this ▸ hec)
  · intro heq
    have htef : te = f := idx_inj hwf.1 te hte f hfvd (he1.trans heq)
    exact he5 (by rw [htef]; exact hfc)
  · intro heq
    have htetf : te = tf := idx_inj hwf.1 te hte tf htf (he1.trans (heq.trans hf1.symm))
    have : e.idx = f.idx := by rw [← he2, htetf, hf2]
    exact hne (idx_inj hwf.1 e hevd f hfvd this)

/-! ## Lemmas about the initial vertex map -/

theorem m0_mget {vd : List HalfEdge} (hwf : WellFormed vd) (v : Nat) :
    mget (buildVertex (primaryEdges vd)) v
      = (primaryEdges vd).filter (fun e => e.a == v || e.b == v) :=
  buildVertex_mget (primaryEdges vd) hwf.2.1 v

theorem m0_entry {vd : List HalfEdge} (hwf : WellFormed vd) {v : Nat} {x : HalfEdge}
    (hx : x ∈ mget (buildVertex (primaryEdges vd)) v) :
    x ∈ primaryEdges vd ∧ (x.a = v ∨ x.b = v) := by
  rw [m0_mget hwf] at hx
  have h := List.mem_filter.mp hx
  refine ⟨h.1, ?_⟩
  have := h.2
  simp at this
  exact this

theorem m0_self_mem {vd : List HalfEdge} (hwf : WellFormed vd) {e : HalfEdge}
    (he : e ∈ primaryEdges vd) :
    e ∈ mget (buildVertex (primaryEdges vd)) e.a ∧
    e ∈ mget (buildVertex (primaryEdges vd)) e.b := by
  rw [m0_mget hwf, m0_mget hwf]
  exact ⟨List.mem_filter.mpr ⟨he, by simp⟩, List.mem_filter.mpr ⟨he, by simp⟩⟩

theorem m0_idx_nodup {vd : List HalfEdge} (hwf : WellFormed vd) (v : Nat) :
    ((mget (buildVertex (primaryEdges vd)) v).map (fun x => x.idx)).Nodup := by
  rw [m0_mget hwf]
  exact List.Nodup.sublist (List.Sublist.map _ (List.filter_sublist _)) (prim_idx_nodup hwf)

/-- Removing an edge by index from a list with distinct indices removes
exactly that edge. -/
theorem filter_idx_spec (l : List HalfEdge) (e : HalfEdge)
    (hnd : (l.map (fun x => x.idx)).Nodup) (he : e ∈ l) :
    (l.filter (fun x => x.idx != e.idx)).length + 1 = l.length ∧
    ∀ x : HalfEdge, x ∈ l.filter (fun x => x.idx != e.idx) ↔ x ∈ l ∧ x ≠ e := by
  induction l with
  | nil => exact absurd he (List.not_mem_nil e)
  | cons y t ih =>
    rw [List.map_cons, List.nodup_cons] at hnd
    rcases List.mem_cons.mp he with rfl | het
    · have htfil : t.filter (fun x => x.idx != e.idx) = t := by
        apply List.filter_eq_self.mpr
        intro x hx
        have hxe : x.idx ≠ e.idx := by
          intro hh
          exact hnd.1 (hh ▸ List.mem_map_of_mem _ hx)
        simpa using hxe
      rw [List.filter_cons, if_neg (by simp), htfil]
      refine ⟨by simp, ?_⟩
      intro x
      constructor
      · intro hx
        refine ⟨List.mem_cons_of_mem _ hx, ?_⟩
        intro hxe
        subst hxe
        exact hnd.1 (List.mem_map_of_mem _ hx)
      · rintro ⟨hx, hne⟩
        rcases List.mem_cons.mp hx with rfl | h
        · exact absurd rfl hne
        · exact h
    · have hyne : y.idx ≠ e.idx := by
        intro hh
        exact hnd.1 (hh ▸ List.mem_map_of_mem _ het)
      rw [List.filter_cons, if_pos (by simpa using hyne)]
      obtain ⟨hlen, hmem⟩ := ih hnd.2 het
      have hyv : y ≠ e := by
        intro hh
        exact hyne (by rw [hh])
      refine ⟨by simp only [List.length_cons]; omega, ?_⟩
      intro x
      rw [List.mem_cons, hmem, List.mem_cons]
      constructor
      · rintro (rfl | ⟨hx, hne⟩)
        · exact ⟨.inl rfl, hyv⟩
        · exact ⟨.inr hx, hne⟩
      · rintro ⟨rfl | hx, hne⟩
        · exact .inl rfl
        · exact .inr ⟨hx, hne⟩

/-! ## Lemmas about initKnots -/

theorem knot_mem_of_degree {m : VMap} (_hnd : (m.map Prod.fst).Nodup) {v : Nat}
    (hdeg : (mget m v).length = 1 ∨ 2 < (mget m v).length) : v ∈ initKnots m := by
  have hne : mget m v ≠ [] := by
    intro hh
    rw [hh] at hdeg
    rcases hdeg with h | h <;> simp at h
  obtain ⟨p, hp, hp1, hp2⟩ := mget_entry m v hne
  have hbase : v ∈ initKnotsBase m := by
    unfold initKnotsBase
    rcases hdeg with h1 | h2
    · apply List.mem_append_left
      exact List.mem_map.mpr ⟨p, List.mem_filter.mpr ⟨hp, by simp [hp2, h1]⟩, hp1⟩
    · apply List.mem_append_right
      exact List.mem_map.mpr ⟨p, List.mem_filter.mpr ⟨hp, by simp [hp2, h2]⟩, hp1⟩
  unfold initKnots
  rw [if_neg]
  · exact hbase
  · intro hh
    rw [List.isEmpty_iff] at hh
    rw [hh] at hbase
    exact absurd hbase (List.not_mem_nil v)

theorem not_knot_degree {m : VMap} (hnd : (m.map Prod.fst).Nodup) {v : Nat}
    (hv : v ∉ initKnots m) :
    (mget m v).length = 0 ∨ (mget m v).length = 2 := by
  by_contra h
  push_neg at h
  have hdeg : (mget m v).length = 1 ∨ 2 < (mget m v).length := by omega
  exact hv (knot_mem_of_degree hnd hdeg)

theorem knot_exists {m : VMap} (hnd : (m.map Prod.fst).Nodup) {v0 : Nat}
    (h : mget m v0 ≠ []) : ∃ k ∈ initKnots m, mget m k ≠ [] := by
  unfold initKnots
  by_cases hbase : (initKnotsBase m).isEmpty = true
  · rw [if_pos hbase]
    obtain ⟨p0, hp0, hp01, hp02⟩ := mget_entry m v0 h
    cases hf : m.find? (fun p => decide (0 < p.2.length)) with
    | none =>
      exfalso
      have hall := List.find?_eq_none.mp hf p0 hp0
      have hlen : 0 < p0.2.length := by
        rw [hp02]
        exact List.length_pos.mpr h
      simp [hlen] at hall
    | some p =>
      refine ⟨p.1, by simp, ?_⟩
      have hpm := List.mem_of_find?_eq_some hf
      have hpp : 0 < p.2.length := by simpa using List.find?_some hf
      rw [entry_mget m p hpm hnd]
      intro hh
      rw [hh] at hpp
      simp at hpp
  · rw [if_neg hbase]
    have hne : initKnotsBase m ≠ [] := by
      intro hh
      exact hbase (by rw [List.isEmpty_iff]; exact hh)
    obtain ⟨w, hw⟩ := List.exists_mem_of_ne_nil _ hne
    refine ⟨w, hw, ?_⟩
    unfold initKnotsBase at hw
    rcases List.mem_append.mp hw with h1 | h2
    · obtain ⟨p, hpf, hp1⟩ := List.mem_map.mp h1
      have hpm := (List.mem_filter.mp hpf).1
      have hplen : p.2.length = 1 := by simpa using (List.mem_filter.mp hpf).2
      rw [← hp1, entry_mget m p hpm hnd]
      intro hh
      rw [hh] at hplen
      simp at hplen
    · obtain ⟨p, hpf, hp1⟩ := List.mem_map.mp h2
      have hpm := (List.mem_filter.mp hpf).1
      have hplen : 2 < p.2.length := by simpa using (List.mem_filter.mp hpf).2
      rw [← hp1, entry_mget m p hpm hnd]
      intro hh
      rw [hh] at hplen
      simp at hplen

/-! ## One traversal step -/

theorem wireCnt_append (ws : List HalfEdge) (x e : HalfEdge) :
    wireCnt (ws ++ [x]) e
      = wireCnt ws e + (if x.idx = e.idx ∨ x.idx = e.twinIdx then 1 else 0) := by
  unfold wireCnt
  rw [List.countP_append]
  by_cases h : x.idx = e.idx ∨ x.idx = e.twinIdx
  · rw [if_pos h]
    have : (List.countP (fun y => y.idx == e.idx || y.idx == e.twinIdx) [x]) = 1 := by
      rcases h with h | h <;> simp [List.countP_cons, h]
    rw [this]
  · rw [if_neg h]
    push_neg at h
    have : (List.countP (fun y => y.idx == e.idx || y.idx == e.twinIdx) [x]) = 0 := by
      simp [List.countP_cons, h.1, h.2]
    rw [this]

theorem traverse_spec {vd : List HalfEdge} (hwf : WellFormed vd) {m : VMap}
    {ws : List HalfEdge} {w : Nat} {e : HalfEdge}
    (hinv : LoopInv vd m ws) (he : e ∈ mget m w) :
    ∃ vEnd : Nat,
      ((w = e.a ∧ vEnd = e.b) ∨ (w = e.b ∧ vEnd = e.a)) ∧
      vEnd ≠ w ∧
      e ∈ primaryEdges vd ∧
      e ∈ mget m vEnd ∧
      (traverse vd w e m).2.2.a = w ∧
      (traverse vd w e m).2.2.b = vEnd ∧
      ((traverse vd w e m).2.2 = e ∨ (traverse vd w e m).2.2 = getTwin vd e) ∧
      mget (traverse vd w e m).2.1 w = (mget m w).filter (fun x => x.idx != e.idx) ∧
      mget (traverse vd w e m).2.1 vEnd = (mget m vEnd).filter (fun x => x.idx != e.idx) ∧
      (∀ u, u ≠ w → u ≠ vEnd → mget (traverse vd w e m).2.1 u = mget m u) ∧
      ((traverse vd w e m).1 = none ↔ (mget m vEnd).length = 1) ∧
      ((traverse vd w e m).1 = some vEnd ∨ (traverse vd w e m).1 = none) ∧
      LoopInv vd (traverse vd w e m).2.1 (ws ++ [(traverse vd w e m).2.2]) ∧
      msize (traverse vd w e m).2.1 + 2 = msize m ∧
      (mget (traverse vd w e m).2.1 w).length + 1 = (mget m w).length ∧
      (mget (traverse vd w e m).2.1 vEnd).length + 1 = (mget m vEnd).length ∧
      (∀ u, (mget (traverse vd w e m).2.1 u).Sublist (mget m u)) := by
  classical
  -- basic facts about e
  have hem0 : e ∈ mget (buildVertex (primaryEdges vd)) w := (hinv.sub w).subset he
  have heprim : e ∈ primaryEdges vd := (m0_entry hwf hem0).1
  have hinc : e.a = w ∨ e.b = w := (m0_entry hwf hem0).2
  have hab : e.a ≠ e.b := hwf.2.1 e heprim
  have hbal := hinv.balance e heprim
  have hboth : e ∈ mget m e.a ∧ e ∈ mget m e.b ∧ wireCnt ws e = 0 := by
    rcases hbal with h | h
    · exact h
    · exfalso
      rcases hinc with hw | hw
      · exact h.1 (hw ▸ he)
      · exact h.2.1 (hw ▸ he)
  -- the far vertex and the appended edge, in the syntax of traverse
  set vEnd : Nat := if w == e.a then e.b else e.a with hvEnd
  set app : HalfEdge := if w == e.a then e else getTwin vd e with happdef
  have hcase : (w = e.a ∧ vEnd = e.b ∧ app = e) ∨ (w = e.b ∧ vEnd = e.a ∧ app = getTwin vd e) := by
    by_cases hwa : w = e.a
    · refine .inl ⟨hwa, ?_, ?_⟩
      · rw [hvEnd, if_pos (by simp [hwa])]
      · rw [happdef, if_pos (by simp [hwa])]
    · have hwb : w = e.b := by
        rcases hinc with h | h
        · exact absurd h.symm hwa
        · exact h.symm
      refine .inr ⟨hwb, ?_, ?_⟩
      · rw [hvEnd, if_neg (by simpa using hwa)]
      · rw [happdef, if_neg (by simpa using hwa)]
  have hvw : vEnd ≠ w := by
    rcases hcase with ⟨h1, h2, _⟩ | ⟨h1, h2, _⟩
    · rw [h1, h2]; exact fun hh => hab hh.symm
    · rw [h1, h2]; exact hab
  have hevEnd : e ∈ mget m vEnd := by
    rcases hcase with ⟨_, h2, _⟩ | ⟨_, h2, _⟩
    · rw [h2]; exact hboth.2.1
    · rw [h2]; exact hboth.1
  have htwin := getTwin_spec hwf heprim
  have happ_a : app.a = w := by
    rcases hcase with ⟨h1, _, h3⟩ | ⟨h1, _, h3⟩
    · rw [h3, ← h1]
    · rw [h3, htwin.2.2.1, ← h1]
  have happ_b : app.b = vEnd := by
    rcases hcase with ⟨_, h2, h3⟩ | ⟨_, h2, h3⟩
    · rw [h3, ← h2]
    · rw [h3, htwin.2.2.2.1, ← h2]
  have happ_or : app = e ∨ app = getTwin vd e := by
    rcases hcase with ⟨_, _, h3⟩ | ⟨_, _, h3⟩
    · exact .inl h3
    · exact .inr h3
  have happ_idx : app.idx = e.idx ∨ app.idx = e.twinIdx := by
    rcases happ_or with h | h
    · exact .inl (by rw [h])
    · exact .inr (by rw [h, htwin.1])
  -- key membership
  have hndkeys : (m.map Prod.fst).Nodup := by
    rw [hinv.keys]
    exact buildVertex_keys_nodup (primaryEdges vd)
  have hkw : w ∈ m.map Prod.fst := mget_ne_nil_key m w (by
    intro hh; rw [hh] at he; exact absurd he (List.not_mem_nil e))
  have hkv : vEnd ∈ m.map Prod.fst := mget_ne_nil_key m vEnd (by
    intro hh; rw [hh] at hevEnd; exact absurd hevEnd (List.not_mem_nil e))
  -- the two consume steps
  have hmw_nodup : ((mget m w).map (fun x => x.idx)).Nodup :=
    List.Nodup.sublist (List.Sublist.map _ (hinv.sub w)) (m0_idx_nodup hwf w)
  have hmv_nodup : ((mget m vEnd).map (fun x => x.idx)).Nodup :=
    List.Nodup.sublist (List.Sublist.map _ (hinv.sub vEnd)) (m0_idx_nodup hwf vEnd)
  obtain ⟨hlenw, hmemw⟩ := filter_idx_spec (mget m w) e hmw_nodup he
  obtain ⟨hlenv, hmemv⟩ := filter_idx_spec (mget m vEnd) e hmv_nodup hevEnd
  set l1 := (mget m w).filter (fun x => x.idx != e.idx) with hl1
  set l2 := (mget m vEnd).filter (fun x => x.idx != e.idx) with hl2
  have hm1get_v : mget (mset m w l1) vEnd = mget m vEnd := mget_mset_ne m w l1 vEnd hvw
  have hm2' : (consume (mset m w l1) vEnd e).1 = mset (mset m w l1) vEnd l2 := by
    show mset (mset m w l1) vEnd ((mget (mset m w l1) vEnd).filter (fun x => x.idx != e.idx))
      = mset (mset m w l1) vEnd l2
    rw [hm1get_v]
  -- traverse in explicit form
  have htrav : traverse vd w e m
      = ((if ((mget (mset m w l1) vEnd).filter (fun x => x.idx != e.idx)).isEmpty
            then none else some vEnd),
          (consume (mset m w l1) vEnd e).1, app) := rfl
  -- the updated map
  have hm2w : mget (traverse vd w e m).2.1 w = l1 := by
    rw [htrav]
    show mget ((consume (mset m w l1) vEnd e).1) w = l1
    rw [hm2', mget_mset_ne (mset m w l1) vEnd l2 w (fun hh => hvw hh.symm), mget_mset_self]
  have hm2v : mget (traverse vd w e m).2.1 vEnd = l2 := by
    rw [htrav]
    show mget ((consume (mset m w l1) vEnd e).1) vEnd = l2
    rw [hm2', mget_mset_self]
  have hm2u : ∀ u, u ≠ w → u ≠ vEnd → mget (traverse vd w e m).2.1 u = mget m u := by
    intro u hu1 hu2
    rw [htrav]
    show mget ((consume (mset m w l1) vEnd e).1) u = mget m u
    rw [hm2', mget_mset_ne (mset m w l1) vEnd l2 u hu2, mget_mset_ne m w l1 u hu1]
  have hsub2 : ∀ u, (mget (traverse vd w e m).2.1 u).Sublist (mget m u) := by
    intro u
    by_cases hu1 : u = w
    · subst hu1
      rw [hm2w, hl1]
      exact List.filter_sublist _
    · by_cases hu2 : u = vEnd
      · subst hu2
        rw [hm2v, hl2]
        exact List.filter_sublist _
      · rw [hm2u u hu1 hu2]
  -- option component
  have hl2len : l2.length + 1 = (mget m vEnd).length := hlenv
  have hopt_none : (traverse vd w e m).1 = none ↔ (mget m vEnd).length = 1 := by
    rw [htrav]
    show (if ((mget (mset m w l1) vEnd).filter (fun x => x.idx != e.idx)).isEmpty
        then none else some vEnd) = (none : Option Nat) ↔ (mget m vEnd).length = 1
    rw [hm1get_v]
    by_cases hemp : l2.isEmpty
    · rw [if_pos hemp]
      have : l2 = [] := by rwa [List.isEmpty_iff] at hemp
      constructor
      · intro _
        rw [this] at hl2len
        simpa using hl2len.symm
      · intro _
        rfl
    · rw [if_neg hemp]
      constructor
      · intro hh
        simp at hh
      · intro hh
        exfalso
        have hlen0 : l2.length = 0 := by omega
        exact hemp (by rw [List.isEmpty_iff]; exact List.length_eq_zero.mp hlen0)
  have hopt_or : (traverse vd w e m).1 = some vEnd ∨ (traverse vd w e m).1 = none := by
    rw [htrav]
    show (if ((mget (mset m w l1) vEnd).filter (fun x => x.idx != e.idx)).isEmpty
        then none else some vEnd) = some vEnd ∨ _ = (none : Option Nat)
    by_cases hemp : ((mget (mset m w l1) vEnd).filter (fun x => x.idx != e.idx)).isEmpty
    · rw [if_pos hemp]
      exact .inr rfl
    · rw [if_neg hemp]
      exact .inl rfl
  -- msize
  have hkeys1 : (mset m w l1).map Prod.fst = m.map Prod.fst := mset_keys_of_mem m w l1 hkw
  have hnd1 : ((mset m w l1).map Prod.fst).Nodup := by rw [hkeys1]; exact hndkeys
  have hkv1 : vEnd ∈ (mset m w l1).map Prod.fst := by rw [hkeys1]; exact hkv
  have hms1 := msize_mset m w l1 hndkeys hkw
  have hms2 := msize_mset (mset m w l1) vEnd l2 hnd1 hkv1
  rw [hm1get_v] at hms2
  have hmsize : msize (traverse vd w e m).2.1 + 2 = msize m := by
    rw [htrav]
    show msize ((consume (mset m w l1) vEnd e).1) + 2 = msize m
    rw [hm2']
    omega
  have hkeys2 : ((traverse vd w e m).2.1).map Prod.fst = m.map Prod.fst := by
    rw [htrav]
    show ((consume (mset m w l1) vEnd e).1).map Prod.fst = m.map Prod.fst
    rw [hm2', mset_keys_of_mem (mset m w l1) vEnd l2 hkv1, hkeys1]
  -- the new LoopInv
  have hinv2 : LoopInv vd (traverse vd w e m).2.1 (ws ++ [(traverse vd w e m).2.2]) := by
    have happ2 : (traverse vd w e m).2.2 = app := by rw [htrav]
    rw [happ2]
    refine ⟨by rw [hkeys2, hinv.keys], fun v => (hsub2 v).trans (hinv.sub v), ?_, ?_⟩
    · intro f hf
      by_cases hfe : f = e
      · rw [hfe]
        right
        have hfa : e ∉ l1 := fun hh => ((hmemw e).mp hh).2 rfl
        have hfb : e ∉ l2 := fun hh => ((hmemv e).mp hh).2 rfl
        have hmem2 : ∀ u2, u2 = w ∨ u2 = vEnd → e ∉ mget (traverse vd w e m).2.1 u2 := by
          rintro u2 (rfl | rfl)
          · rw [hm2w]; exact hfa
          · rw [hm2v]; exact hfb
        refine ⟨?_, ?_, ?_⟩
        · apply hmem2
          rcases hcase with ⟨h1, _, _⟩ | ⟨_, h2, _⟩
          · exact .inl h1.symm
          · exact .inr h2.symm
        · apply hmem2
          rcases hcase with ⟨_, h2, _⟩ | ⟨h1, _, _⟩
          · exact .inr h2.symm
          · exact .inl h1.symm
        · rw [wireCnt_append, if_pos happ_idx, hboth.2.2]
      · have hfprim := hf
        have hdisj := twin_pair_disjoint hwf hf heprim (fun hh => hfe hh)
        have hfmem : ∀ u, f ∈ mget (traverse vd w e m).2.1 u ↔ f ∈ mget m u := by
          intro u
          by_cases hu1 : u = w
          · subst hu1
            rw [hm2w]
            constructor
            · intro hh; exact ((hmemw f).mp hh).1
            · intro hh; exact (hmemw f).mpr ⟨hh, fun h2 => hfe h2⟩
          · by_cases hu2 : u = vEnd
            · subst hu2
              rw [hm2v]
              constructor
              · intro hh; exact ((hmemv f).mp hh).1
              · intro hh; exact (hmemv f).mpr ⟨hh, fun h2 => hfe h2⟩
            · rw [hm2u u hu1 hu2]
        have hcnt : wireCnt (ws ++ [app]) f = wireCnt ws f := by
          rw [wireCnt_append, if_neg]
          · omega
          · intro hh
            rcases happ_idx with hi | hi <;> rcases hh with h2 | h2
            · exact hdisj.1 (by rw [← h2, hi])
            · exact hdisj.2.2.1 (by rw [← h2, hi])
            · exact hdisj.2.1 (by rw [← h2, hi])
            · exact hdisj.2.2.2 (by rw [← h2, hi])
        rcases hinv.balance f hf with ⟨h1, h2, h3⟩ | ⟨h1, h2, h3⟩
        · exact .inl ⟨(hfmem f.a).mpr h1, (hfmem f.b).mpr h2, by rw [hcnt, h3]⟩
        · exact .inr ⟨fun hh => h1 ((hfmem f.a).mp hh), fun hh => h2 ((hfmem f.b).mp hh),
            by rw [hcnt, h3]⟩
    · intro x hx
      rcases List.mem_append.mp hx with hx | hx
      · exact hinv.entries x hx
      · have : x = app := by simpa using hx
        subst this
        exact ⟨e, heprim, happ_or⟩
  -- lengths
  have hlen2w : (mget (traverse vd w e m).2.1 w).length + 1 = (mget m w).length := by
    rw [hm2w]; exact hlenw
  have hlen2v : (mget (traverse vd w e m).2.1 vEnd).length + 1 = (mget m vEnd).length := by
    rw [hm2v]; exact hlenv
  -- assemble
  refine ⟨vEnd, ?_, hvw, heprim, hevEnd, ?_, ?_, ?_, ?_, ?_, hm2u, hopt_none, hopt_or,
    hinv2, hmsize, hlen2w, hlen2v, hsub2⟩
  · rcases hcase with ⟨h1, h2, _⟩ | ⟨h1, h2, _⟩
    · exact .inl ⟨h1, h2⟩
    · exact .inr ⟨h1, h2⟩
  · rw [htrav]; exact happ_a
  · rw [htrav]; exact happ_b
  · rw [htrav]; exact happ_or
  · rw [htrav]; exact hm2w
  · rw [htrav]; exact hm2v

/-! ## The walk loop -/

theorem getLastD_cons_he (y : HalfEdge) (t : List HalfEdge) (d : HalfEdge) :
    (y :: t).getLastD d = t.getLastD y := by
  cases t <;> rfl

theorem getLastD_concat_he (l : List HalfEdge) (x : HalfEdge) :
    (l ++ [x]).getLastD default = x := by
  have haux : ∀ (l2 : List HalfEdge) (d : HalfEdge), (l2 ++ [x]).getLastD d = x := by
    intro l2
    induction l2 with
    | nil => intro d; rfl
    | cons y t ih =>
      intro d
      rw [List.cons_append, getLastD_cons_he]
      exact ih y
  exact haux l default

theorem getLast?_some_he : ∀ (l : List HalfEdge), l ≠ [] →
    l.getLast? = some (l.getLastD default) := by
  have haux : ∀ (l : List HalfEdge), l ≠ [] → ∀ d, l.getLast? = some (l.getLastD d) := by
    intro l
    induction l with
    | nil => intro h; exact absurd rfl h
    | cons y t ih =>
      intro _ d
      cases t with
      | nil => rfl
      | cons z zs =>
        rw [List.getLast?_cons_cons, getLastD_cons_he]
        exact ih (by simp) y
  exact fun l h => haux l h default

theorem headD_concat_he (l : List HalfEdge) (x : HalfEdge) (h : l ≠ []) :
    (l ++ [x]).headD default = l.headD default := by
  cases l with
  | nil => exact absurd rfl h
  | cons y t => rfl

theorem walk_spec {vd : List HalfEdge} (hwf : WellFormed vd) (prior : List HalfEdge) :
    ∀ (fuel : Nat) (w : Nat) (m : VMap) (we : List HalfEdge),
      msize m < fuel →
      LoopInv vd m (prior ++ we) →
      (∀ v, v ≠ w → v ∉ knotVertices vd →
        mget m v = [] ∨ mget m v = mget (buildVertex (primaryEdges vd)) v) →
      (w ∉ knotVertices vd → (mget m w).length = 1) →
      (we = [] ∨ (we ≠ [] ∧ List.Chain' (fun x y => x.b = y.a) we ∧
        (we.getLastD default).b = w)) →
      LoopInv vd (walk vd fuel w m we).2.1 (prior ++ (walk vd fuel w m we).2.2) ∧
      NonKnotBalanced vd (walk vd fuel w m we).2.1 ∧
      (∀ v, (mget (walk vd fuel w m we).2.1 v).Sublist (mget m v)) ∧
      msize (walk vd fuel w m we).2.1 ≤ msize m ∧
      (mget m w ≠ [] → msize (walk vd fuel w m we).2.1 < msize m) ∧
      we.IsPrefix (walk vd fuel w m we).2.2 ∧
      ((mget m w = [] ∧ walk vd fuel w m we = (w, m, we)) ∨
        ((walk vd fuel w m we).2.2 ≠ [] ∧
         List.Chain' (fun x y => x.b = y.a) (walk vd fuel w m we).2.2 ∧
         (((walk vd fuel w m we).2.2).getLastD default).b ∈ knotVertices vd ∧
         (we = [] → (((walk vd fuel w m we).2.2).headD default).a = w) ∧
         (we ≠ [] → ((walk vd fuel w m we).2.2).headD default = we.headD default))) := by
  intro fuel
  induction fuel with
  | zero =>
    intro w m we hfuel
    omega
  | succ fuel ih =>
    intro w m we hfuel hinv hact1 hact2 hchain
    have hndkeys0 : ((buildVertex (primaryEdges vd)).map Prod.fst).Nodup :=
      buildVertex_keys_nodup (primaryEdges vd)
    cases hmw : mget m w with
    | nil =>
      have hwalk : walk vd (fuel + 1) w m we = (w, m, we) := by
        simp only [walk, hmw]
      rw [hwalk]
      have hwK : w ∈ knotVertices vd := by
        by_contra hk
        have := hact2 hk
        rw [hmw] at this
        simp at this
      refine ⟨hinv, ?_, fun v => List.Sublist.refl _, le_rfl,
        fun hh => absurd rfl hh, List.prefix_refl we, .inl ⟨rfl, rfl⟩⟩
      intro v hv
      by_cases hvw : v = w
      · subst hvw
        exact absurd hwK hv
      · exact hact1 v hvw hv
    | cons e rest =>
      have he : e ∈ mget m w := by rw [hmw]; exact List.mem_cons_self e rest
      have hmwne : mget m w ≠ [] := by rw [hmw]; simp
      obtain ⟨vEnd, hcase, hvw, heprim, hevEnd, happa, happb, happor, hm2w, hm2v, hm2u,
        hoptnone, hoptor, hinv2, hmsize, hlenw, hlenv, hsub2⟩ := traverse_spec hwf hinv he
      rw [List.append_assoc] at hinv2
      have hwalk : walk vd (fuel + 1) w m we
          = (match (traverse vd w e m).1 with
             | none => (w, (traverse vd w e m).2.1, we ++ [(traverse vd w e m).2.2])
             | some v => walk vd fuel v (traverse vd w e m).2.1
                 (we ++ [(traverse vd w e m).2.2])) := by
        simp only [walk, hmw]
      -- knot status of the far vertex
      have hvEndK : vEnd ∈ knotVertices vd ∨
          (mget m vEnd = mget (buildVertex (primaryEdges vd)) vEnd ∧
            (mget m vEnd).length = 2) := by
        by_cases hk : vEnd ∈ knotVertices vd
        · exact .inl hk
        · right
          rcases hact1 vEnd hvw hk with hnil | heq
          · rw [hnil] at hevEnd
            exact absurd hevEnd (List.not_mem_nil e)
          · refine ⟨heq, ?_⟩
            have hdeg := not_knot_degree hndkeys0 (v := vEnd) hk
            rw [heq]
            rcases hdeg with h0 | h2
            · exfalso
              rw [heq] at hevEnd
              rw [List.length_eq_zero.mp h0] at hevEnd
              exact absurd hevEnd (List.not_mem_nil e)
            · exact h2
      -- chain facts for the extended wire
      have hchain2 : List.Chain' (fun x y => x.b = y.a) (we ++ [(traverse vd w e m).2.2]) := by
        rw [List.chain'_append]
        refine ⟨?_, List.chain'_singleton _, ?_⟩
        · rcases hchain with rfl | ⟨_, hc, _⟩
          · exact List.chain'_nil
          · exact hc
        · intro x hx y hy
          have hy2 : (traverse vd w e m).2.2 = y := by simpa using hy
          rcases hchain with rfl | ⟨hne, _, hlast⟩
          · simp at hx
          · rw [getLast?_some_he we hne] at hx
            have hx2 : x = we.getLastD default := by simpa using hx.symm
            rw [hx2, ← hy2, happa, hlast]
      have hlast2 : ((we ++ [(traverse vd w e m).2.2]).getLastD default).b = vEnd := by
        rw [getLastD_concat_he, happb]
      have hwene : we ++ [(traverse vd w e m).2.2] ≠ [] := by simp
      rcases hoptor with hsome | hnone
      · -- the walk continues at vEnd
        have hlenvne : ¬ (mget m vEnd).length = 1 := by
          intro hh
          have := hoptnone.mpr hh
          rw [hsome] at this
          simp at this
        have hm2vne : mget (traverse vd w e m).2.1 vEnd ≠ [] := by
          intro hh
          have h0 : (mget (traverse vd w e m).2.1 vEnd).length = 0 := by rw [hh]; rfl
          have hne2 : mget m vEnd ≠ [] := by
            intro hh2
            rw [hh2] at hevEnd
            exact absurd hevEnd (List.not_mem_nil e)
          have h1 := List.length_pos.mpr hne2
          omega
        have hrec := ih vEnd (traverse vd w e m).2.1 (we ++ [(traverse vd w e m).2.2])
          (by omega) hinv2
          (by
            intro v hv hk
            by_cases hvw2 : v = w
            · subst hvw2
              by_cases hvK : v ∈ knotVertices vd
              · exact absurd hvK hk
              · left
                have := hact2 hvK
                have hl := hlenw
                rw [this] at hl
                exact List.length_eq_zero.mp (by omega)
            · rw [hm2u v hvw2 hv]
              exact hact1 v hvw2 hk)
          (by
            intro hk
            rcases hvEndK with hK | ⟨_, hlen2⟩
            · exact absurd hK hk
            · omega)
          (.inr ⟨hwene, hchain2, hlast2⟩)
        obtain ⟨hrinv, hrnkb, hrsub, hrle, hrlt, hrpre, hrwire⟩ := hrec
        have hwres : walk vd (fuel + 1) w m we
            = walk vd fuel vEnd (traverse vd w e m).2.1
                (we ++ [(traverse vd w e m).2.2]) := by
          rw [hwalk, hsome]
        rw [hwres]
        refine ⟨hrinv, hrnkb, fun v => (hrsub v).trans (hsub2 v), by omega,
          fun _ => by omega, ?_, ?_⟩
        · exact List.IsPrefix.trans (List.prefix_append we _) hrpre
        · rcases hrwire with ⟨hnil, _⟩ | ⟨h1, h2, h3, h4, h5⟩
          · exact absurd hnil hm2vne
          · right
            refine ⟨h1, h2, h3, ?_, ?_⟩
            · intro hwe0
              subst hwe0
              rw [h5 (by simp)]
              rw [List.nil_append]
              show ([(traverse vd w e m).2.2].headD default).a = w
              simpa using happa
            · intro hwe0
              rw [h5 hwene, headD_concat_he we _ hwe0]
      · -- the walk ends here
        have hwres : walk vd (fuel + 1) w m we
            = (w, (traverse vd w e m).2.1, we ++ [(traverse vd w e m).2.2]) := by
          rw [hwalk, hnone]
        have hvEndKnot : vEnd ∈ knotVertices vd := by
          rcases hvEndK with hK | ⟨_, hlen2⟩
          · exact hK
          · exfalso
            have := hoptnone.mp hnone
            omega
        have hfix1 : (walk vd (fuel + 1) w m we).2.1 = (traverse vd w e m).2.1 := by
          rw [hwres]
        have hfix2 : (walk vd (fuel + 1) w m we).2.2
            = we ++ [(traverse vd w e m).2.2] := by
          rw [hwres]
        rw [hfix1, hfix2]
        refine ⟨hinv2, ?_, hsub2, by omega, fun _ => by omega,
          List.prefix_append we _, ?_⟩
        · intro v hv
          by_cases hvw2 : v = w
          · subst hvw2
            by_cases hvK : v ∈ knotVertices vd
            · exact absurd hvK hv
            · left
              have := hact2 hvK
              have hl := hlenw
              rw [this] at hl
              exact List.length_eq_zero.mp (by omega)
          · by_cases hvv : v = vEnd
            · subst hvv
              exact absurd hvEndKnot hv
            · rw [hm2u v hvw2 hvv]
              exact hact1 v hvw2 hv
        · right
          refine ⟨hwene, hchain2, by rw [hlast2]; exact hvEndKnot, ?_, ?_⟩
          · intro hwe0
            subst hwe0
            rw [List.nil_append]
            show ([(traverse vd w e m).2.2].headD default).a = w
            simpa using happa
          · intro hwe0
            exact headD_concat_he we _ hwe0

/-! ## The outer collection loop -/

theorem filter_guard_mem (k : List Nat) (m3 : VMap) (x v : Nat)
    (hv : mget m3 v ≠ []) (hmem : v ∈ k) :
    v ∈ (if (mget m3 x).isEmpty then k.filter (fun u => u != x) else k) := by
  by_cases hg : (mget m3 x).isEmpty
  · rw [if_pos hg]
    apply List.mem_filter.mpr
    refine ⟨hmem, ?_⟩
    have hvx : v ≠ x := by
      intro hh
      subst hh
      rw [List.isEmpty_iff] at hg
      exact hv hg
    simpa using hvx
  · rw [if_neg hg]
    exact hmem

theorem filter_guard_sub (k : List Nat) (m3 : VMap) (x : Nat) :
    ∀ v ∈ (if (mget m3 x).isEmpty then k.filter (fun u => u != x) else k), v ∈ k := by
  intro v hv
  by_cases hg : (mget m3 x).isEmpty
  · rw [if_pos hg] at hv
    exact (List.mem_filter.mp hv).1
  · rw [if_neg hg] at hv
    exact hv

theorem filter_guard_len (k : List Nat) (m3 : VMap) (x : Nat) :
    (if (mget m3 x).isEmpty then k.filter (fun u => u != x) else k).length ≤ k.length := by
  by_cases hg : (mget m3 x).isEmpty
  · rw [if_pos hg]
    exact List.length_filter_le _ _
  · rw [if_neg hg]

theorem collectLoop_spec {vd : List HalfEdge} (hwf : WellFormed vd) :
    ∀ (fuel : Nat) (knots : List Nat) (m : VMap) (wires : List (List HalfEdge)),
      msize m + knots.length < fuel →
      LoopInv vd m wires.flatten →
      NonKnotBalanced vd m →
      KnotsOk vd knots m →
      (∀ w ∈ wires, WireOk vd w) →
      ∃ mf : VMap,
        LoopInv vd mf (collectLoop vd fuel knots m wires).flatten ∧
        NonKnotBalanced vd mf ∧
        (∀ v ∈ knotVertices vd, mget mf v = []) ∧
        (∀ w ∈ collectLoop vd fuel knots m wires, WireOk vd w) := by
  intro fuel
  induction fuel with
  | zero =>
    intro knots m wires hfuel
    omega
  | succ fuel ih =>
    intro knots m wires hfuel hinv hnkb hknots hwires
    match knots with
    | [] =>
      have hcoll : collectLoop vd (fuel + 1) [] m wires = wires := by
        simp only [collectLoop]
      rw [hcoll]
      refine ⟨m, hinv, hnkb, ?_, hwires⟩
      intro v hvK
      by_contra hne
      exact absurd (hknots.1 v hvK hne) (List.not_mem_nil v)
    | vFirst :: rest =>
      by_cases hguard : (mget m vFirst).isEmpty
      · -- no walk: the first knot is exhausted, drop it
        have hcoll : collectLoop vd (fuel + 1) (vFirst :: rest) m wires
            = collectLoop vd fuel
                (((vFirst :: rest).filter (fun v => v != vFirst)).filter
                  (fun v => v != vFirst)) m wires := by
          simp only [collectLoop, hguard, if_true]
        have hlen1 : ((vFirst :: rest).filter (fun v => v != vFirst)).length ≤ rest.length := by
          rw [List.filter_cons, if_neg (by simp)]
          exact List.length_filter_le _ _
        have hlen2 : (((vFirst :: rest).filter (fun v => v != vFirst)).filter
            (fun v => v != vFirst)).length ≤ rest.length :=
          le_trans (List.length_filter_le _ _) hlen1
        rw [hcoll]
        apply ih _ m wires (by simp only [List.length_cons] at hfuel; omega) hinv hnkb
          ?_ hwires
        constructor
        · intro v hvK hvne
          have hmem := hknots.1 v hvK hvne
          have hvF : v ≠ vFirst := by
            intro hh
            subst hh
            rw [List.isEmpty_iff] at hguard
            exact hvne hguard
          exact List.mem_filter.mpr ⟨List.mem_filter.mpr ⟨hmem, by simpa using hvF⟩,
            by simpa using hvF⟩
        · intro v hv
          exact hknots.2 v ((List.mem_filter.mp ((List.mem_filter.mp hv).1)).1)
      · -- walk from the first knot
        have hmwne : mget m vFirst ≠ [] := by
          intro hh
          exact hguard (by rw [List.isEmpty_iff]; exact hh)
        have hvFK : vFirst ∈ knotVertices vd := hknots.2 vFirst (List.mem_cons_self _ _)
        have hinv0 : LoopInv vd m (wires.flatten ++ []) := by
          rw [List.append_nil]
          exact hinv
        obtain ⟨winv, wnkb, wsub, wle, wlt, wpre, wwire⟩ :=
          walk_spec hwf wires.flatten (msize m + 1) vFirst m []
            (by omega) hinv0
            (fun v hv hk => hnkb v hk)
            (fun hk => absurd hvFK hk)
            (.inl rfl)
        rcases wwire with ⟨hnil, _⟩ | ⟨hwne, hwchain, hwlast, hwhead, _⟩
        · exact absurd hnil hmwne
        · set W := walk vd (msize m + 1) vFirst m [] with hW
          have hcoll : collectLoop vd (fuel + 1) (vFirst :: rest) m wires
              = collectLoop vd fuel
                  (if (mget W.2.1 W.1).isEmpty then
                    (if (mget W.2.1 vFirst).isEmpty then
                      (vFirst :: rest).filter (fun v => v != vFirst)
                    else (vFirst :: rest)).filter (fun v => v != W.1)
                  else
                    (if (mget W.2.1 vFirst).isEmpty then
                      (vFirst :: rest).filter (fun v => v != vFirst)
                    else (vFirst :: rest)))
                  W.2.1 (wires ++ [W.2.2]) := by
            simp only [collectLoop, hguard, Bool.false_eq_true, if_false, hW]
          rw [hcoll]
          have hk1mem : ∀ v, mget W.2.1 v ≠ [] → v ∈ vFirst :: rest →
              v ∈ (if (mget W.2.1 vFirst).isEmpty then
                (vFirst :: rest).filter (fun v => v != vFirst) else (vFirst :: rest)) := by
            intro v hv hmem
            exact filter_guard_mem _ _ _ _ hv hmem
          have hflat : (wires ++ [W.2.2]).flatten = wires.flatten ++ W.2.2 := by
            rw [List.flatten_append]
            simp
          have hfuel2 : msize W.2.1 +
              (if (mget W.2.1 W.1).isEmpty then
                (if (mget W.2.1 vFirst).isEmpty then
                  (vFirst :: rest).filter (fun v => v != vFirst)
                else (vFirst :: rest)).filter (fun v => v != W.1)
              else
                (if (mget W.2.1 vFirst).isEmpty then
                  (vFirst :: rest).filter (fun v => v != vFirst)
                else (vFirst :: rest))).length < fuel := by
            have hl1 := filter_guard_len (vFirst :: rest) W.2.1 vFirst
            have hl2 := filter_guard_len
              (if (mget W.2.1 vFirst).isEmpty then
                (vFirst :: rest).filter (fun v => v != vFirst) else (vFirst :: rest))
              W.2.1 W.1
            have hstrict := wlt hmwne
            simp only [List.length_cons] at hfuel hl1 hl2 ⊢
            omega
          apply ih _ W.2.1 (wires ++ [W.2.2]) hfuel2 (by rw [hflat]; exact winv) wnkb ?_ ?_
          · constructor
            · intro v hvK hvne
              have hmv : mget m v ≠ [] := by
                intro hh
                have := wsub v
                rw [hh] at this
                exact hvne (List.sublist_nil.mp this)
              have hmem := hknots.1 v hvK hmv
              exact filter_guard_mem _ _ _ _ hvne (hk1mem v hvne hmem)
            · intro v hv
              exact hknots.2 v (filter_guard_sub _ _ _ v
                (filter_guard_sub _ _ _ v hv))
          · intro w hw
            rcases List.mem_append.mp hw with hw | hw
            · exact hwires w hw
            · have hwW : w = W.2.2 := by simpa using hw
              subst hwW
              refine ⟨hwne, hwchain, ?_, hwlast⟩
              rw [hwhead rfl]
              exact hvFK

/-- Once every knot's incidence list is empty, a connected diagram has no
primary edge left in the map: an untouched vertex stays untouched along any
path of primary edges, and connectivity leads to a knot, whose list is
empty although an untouched nonempty list would have to survive there. -/
theorem no_leftover {vd : List HalfEdge} (hwf : WellFormed vd)
    (hconn : ConnectedDiagram vd) {mf : VMap} {ws : List HalfEdge}
    (hinv : LoopInv vd mf ws) (hnkb : NonKnotBalanced vd mf)
    (hknots : ∀ v ∈ knotVertices vd, mget mf v = [])
    {e : HalfEdge} (he : e ∈ primaryEdges vd) : e ∉ mget mf e.a := by
  intro hins
  have hstep : ∀ c v, adjacent vd c v →
      (mget mf c = mget (buildVertex (primaryEdges vd)) c ∧
        mget (buildVertex (primaryEdges vd)) c ≠ []) →
      (mget mf v = mget (buildVertex (primaryEdges vd)) v ∧
        mget (buildVertex (primaryEdges vd)) v ≠ []) := by
    intro c v hadj hc
    obtain ⟨f, hf, hor⟩ := hadj
    have hfc : f ∈ mget mf c := by
      rw [hc.1]
      rcases hor with ⟨ha, _⟩ | ⟨_, hb⟩
      · rw [← ha]
        exact (m0_self_mem hwf hf).1
      · rw [← hb]
        exact (m0_self_mem hwf hf).2
    have hboth : f ∈ mget mf f.a ∧ f ∈ mget mf f.b := by
      rcases hinv.balance f hf with ⟨h1, h2, _⟩ | ⟨h1, h2, _⟩
      · exact ⟨h1, h2⟩
      · exfalso
        rcases hor with ⟨ha, _⟩ | ⟨_, hb⟩
        · exact h1 (by rw [ha]; exact hfc)
        · exact h2 (by rw [hb]; exact hfc)
    have hfv : f ∈ mget mf v := by
      rcases hor with ⟨_, hb⟩ | ⟨ha, _⟩
      · rw [← hb]
        exact hboth.2
      · rw [← ha]
        exact hboth.1
    have hvne : mget mf v ≠ [] := by
      intro hh
      rw [hh] at hfv
      exact List.not_mem_nil f hfv
    have hvnK : v ∉ knotVertices vd := fun hk => hvne (hknots v hk)
    rcases hnkb v hvnK with h | h
    · exact absurd h hvne
    · refine ⟨h, ?_⟩
      intro hh
      exact hvne (by rw [h, hh])
  have hprop : ∀ u v, Relation.ReflTransGen (adjacent vd) u v →
      (mget mf u = mget (buildVertex (primaryEdges vd)) u ∧
        mget (buildVertex (primaryEdges vd)) u ≠ []) →
      (mget mf v = mget (buildVertex (primaryEdges vd)) v ∧
        mget (buildVertex (primaryEdges vd)) v ≠ []) := by
    intro u v hr
    induction hr with
    | refl => exact id
    | tail h1 h2 ih =>
      intro hu
      exact hstep _ _ h2 (ih hu)
  have hea_ne : mget mf e.a ≠ [] := by
    intro hh
    rw [hh] at hins
    exact List.not_mem_nil e hins
  have heaK : e.a ∉ knotVertices vd := fun hk => hea_ne (hknots _ hk)
  have hSa : mget mf e.a = mget (buildVertex (primaryEdges vd)) e.a ∧
      mget (buildVertex (primaryEdges vd)) e.a ≠ [] := by
    rcases hnkb e.a heaK with h | h
    · exact absurd h hea_ne
    · refine ⟨h, ?_⟩
      intro hh
      exact hea_ne (by rw [h, hh])
  obtain ⟨k0, hk0K, hk0ne⟩ := knot_exists (buildVertex_keys_nodup (primaryEdges vd)) hSa.2
  have hk0K' : k0 ∈ knotVertices vd := hk0K
  have huE : hasEdgeAt vd e.a := ⟨e, he, .inl rfl⟩
  have hvE : hasEdgeAt vd k0 := by
    obtain ⟨f, hfmem⟩ := List.exists_mem_of_ne_nil _ hk0ne
    obtain ⟨hfp, hfi⟩ := m0_entry hwf hfmem
    exact ⟨f, hfp, hfi⟩
  have hSk := hprop _ _ (hconn e.a k0 huE hvE) hSa
  have hke := hknots k0 hk0K'
  rw [hke] at hSk
  exact hSk.2 hSk.1.symm

/-- A vertex of degree 1 or more than 2 is in the pre-fallback knot list. -/
theorem degree_mem_base {m : VMap} {v : Nat}
    (hdeg : (mget m v).length = 1 ∨ 2 < (mget m v).length) : v ∈ initKnotsBase m := by
  have hne : mget m v ≠ [] := by
    intro hh
    rw [hh] at hdeg
    rcases hdeg with h | h <;> simp at h
  obtain ⟨p, hp, hp1, hp2⟩ := mget_entry m v hne
  unfold initKnotsBase
  rcases hdeg with h1 | h2
  · exact List.mem_append_left _
      (List.mem_map.mpr ⟨p, List.mem_filter.mpr ⟨hp, by simp [hp2, h1]⟩, hp1⟩)
  · exact List.mem_append_right _
      (List.mem_map.mpr ⟨p, List.mem_filter.mpr ⟨hp, by simp [hp2, h2]⟩, hp1⟩)

/-- Every vertex of the pre-fallback knot list has degree 1 or more than 2. -/
theorem base_mem_degree {m : VMap} (hnd : (m.map Prod.fst).Nodup) {v : Nat}
    (hv : v ∈ initKnotsBase m) :
    (mget m v).length = 1 ∨ 2 < (mget m v).length := by
  unfold initKnotsBase at hv
  rcases List.mem_append.mp hv with h | h
  · left
    obtain ⟨p, hpf, hp1⟩ := List.mem_map.mp h
    obtain ⟨hpm, hpc⟩ := List.mem_filter.mp hpf
    rw [← hp1, entry_mget m p hpm hnd]
    simpa using hpc
  · right
    obtain ⟨p, hpf, hp1⟩ := List.mem_map.mp h
    obtain ⟨hpm, hpc⟩ := List.mem_filter.mp hpf
    rw [← hp1, entry_mget m p hpm hnd]
    simpa using hpc

/-- Every knot has degree 1 or more than 2, unless no vertex at all does (the
arbitrarily chosen fallback vertex of a pure cycle). -/
theorem initKnots_degree {m : VMap} (hnd : (m.map Prod.fst).Nodup) {v : Nat}
    (hv : v ∈ initKnots m) :
    ((mget m v).length = 1 ∨ 2 < (mget m v).length) ∨
    (∀ u, ¬((mget m u).length = 1 ∨ 2 < (mget m u).length)) := by
  unfold initKnots at hv
  by_cases hbase : (initKnotsBase m).isEmpty = true
  · right
    intro u hu
    have hmem := degree_mem_base (m := m) hu
    rw [List.isEmpty_iff] at hbase
    rw [hbase] at hmem
    exact List.not_mem_nil u hmem
  · rw [if_neg hbase] at hv
    exact .inl (base_mem_degree hnd hv)

/-- _collectVoronoiWires on a well-formed diagram: the final map satisfies the
loop invariant over the emitted edges, non-knots are all-or-nothing, every
knot list is exhausted, and every emitted wire is a knot-to-knot chain. -/
theorem collect_main {vd : List HalfEdge} (hwf : WellFormed vd) :
    ∃ mf : VMap,
      LoopInv vd mf (collectVoronoiWires vd).flatten ∧
      NonKnotBalanced vd mf ∧
      (∀ v ∈ knotVertices vd, mget mf v = []) ∧
      (∀ w ∈ collectVoronoiWires vd, WireOk vd w) := by
  have hinv0 : LoopInv vd (buildVertex (primaryEdges vd))
      ([] : List (List HalfEdge)).flatten := by
    refine ⟨rfl, fun v => List.Sublist.refl _, ?_, ?_⟩
    · intro e he
      exact .inl ⟨(m0_self_mem hwf he).1, (m0_self_mem hwf he).2, rfl⟩
    · intro x hx
      exact absurd hx (List.not_mem_nil x)
  have heq : collectVoronoiWires vd
      = collectLoop vd
          (msize (buildVertex (primaryEdges vd))
            + (initKnots (buildVertex (primaryEdges vd))).length + 1)
          (initKnots (buildVertex (primaryEdges vd)))
          (buildVertex (primaryEdges vd)) [] := by
    simp only [collectVoronoiWires]
  rw [heq]
  exact collectLoop_spec hwf _ _ _ []
    (by omega)
    hinv0
    (fun v hv => .inr rfl)
    ⟨fun v hv _ => hv, fun v hv => hv⟩
    (fun w hw => absurd hw (List.not_mem_nil w))

/-- C1 counterexample: on the two-half-edge diagram whose primary edges are
twins of each other (the claim's well-twinned hypothesis taken literally),
_collectVoronoiWires emits the undirected edge twice, so the output is not a
partition of the primary edge set. -/
theorem wire_partition_counterexample :
    PrimTwinned ceVd ∧ ¬ PartitionsPrimary ceVd (collectVoronoiWires ceVd) := by
  decide

/-- C1 (amended): on a diagram with distinct edge indices whose primary edges
have distinct endpoints and non-primary twins with swapped endpoints (the
diagrams _collectVoronoiWires actually receives after colorTwins), and whose
primary graph is connected, the returned wires exactly partition the primary
edge set: every undirected primary edge occurs exactly once across all
wires, and wires hold nothing but primary edges or their twins. -/
theorem wire_partition_amended (vd : List HalfEdge) (hwf : WellFormed vd)
    (hconn : ConnectedDiagram vd) :
    PartitionsPrimary vd (collectVoronoiWires vd) := by
  obtain ⟨mf, hinv, hnkb, hknots, _⟩ := collect_main hwf
  constructor
  · intro e he
    rcases hinv.balance e he with ⟨h1, _, _⟩ | ⟨_, _, h3⟩
    · exact absurd h1 (no_leftover hwf hconn hinv hnkb hknots he)
    · exact h3
  · intro w hw x hx
    exact hinv.entries x (List.mem_flatten.mpr ⟨w, hw, hx⟩)

/-- C1 witness: the amended partition theorem applied to the Y-branch
diagram, whose connectivity is established through the center vertex. -/
theorem wire_partition_amended_witness :
    PartitionsPrimary yVd (collectVoronoiWires yVd) := by
  apply wire_partition_amended yVd (by decide)
  have hadj1 : adjacent yVd 0 1 := ⟨⟨0, 1, 0, 1, 0⟩, by decide, .inl ⟨rfl, rfl⟩⟩
  have hadj2 : adjacent yVd 0 2 := ⟨⟨2, 3, 0, 2, 0⟩, by decide, .inl ⟨rfl, rfl⟩⟩
  have hadj3 : adjacent yVd 0 3 := ⟨⟨4, 5, 0, 3, 0⟩, by decide, .inl ⟨rfl, rfl⟩⟩
  have hreach0 : ∀ v, hasEdgeAt yVd v → Relation.ReflTransGen (adjacent yVd) 0 v := by
    rintro v ⟨f, hf, hor⟩
    have hf3 : f = (⟨0, 1, 0, 1, 0⟩ : HalfEdge) ∨ f = (⟨2, 3, 0, 2, 0⟩ : HalfEdge)
        ∨ f = (⟨4, 5, 0, 3, 0⟩ : HalfEdge) := by
      have hf2 : f ∈ [(⟨0, 1, 0, 1, 0⟩ : HalfEdge), ⟨2, 3, 0, 2, 0⟩, ⟨4, 5, 0, 3, 0⟩] := hf
      simpa using hf2
    rcases hf3 with rfl | rfl | rfl <;> rcases hor with h | h <;> rw [← h]
    · exact Relation.ReflTransGen.single hadj1
    · exact Relation.ReflTransGen.single hadj2
    · exact Relation.ReflTransGen.single hadj3
  have hsymR : Symmetric (Relation.ReflTransGen (adjacent yVd)) := by
    apply Relation.ReflTransGen.symmetric
    rintro u v ⟨f, hf, hor⟩
    exact ⟨f, hf, hor.symm⟩
  intro u v hu hv
  exact Relation.ReflTransGen.trans (hsymR (hreach0 u hu)) (hreach0 v hv)

/-- C8: every wire returned by _collectVoronoiWires on a well-formed diagram
is a nonempty chain of directed edges in which each edge's end vertex is the
next edge's start vertex, beginning and ending at knot vertices; and every
knot vertex has degree 1 or more than 2 in the primary incidence map, unless
no vertex at all does (the arbitrarily chosen starting vertex of a pure
cycle). -/
theorem wire_chain_spec (vd : List HalfEdge) (hwf : WellFormed vd) :
    (∀ w ∈ collectVoronoiWires vd, w ≠ [] ∧
      List.Chain' (fun e f => e.b = f.a) w ∧
      (w.headD default).a ∈ knotVertices vd ∧
      (w.getLastD default).b ∈ knotVertices vd) ∧
    (∀ v ∈ knotVertices vd,
      ((mget (buildVertex (primaryEdges vd)) v).length = 1 ∨
        2 < (mget (buildVertex (primaryEdges vd)) v).length) ∨
      (∀ u, ¬((mget (buildVertex (primaryEdges vd)) u).length = 1 ∨
        2 < (mget (buildVertex (primaryEdges vd)) u).length))) := by
  obtain ⟨mf, _, _, _, hok⟩ := collect_main hwf
  refine ⟨hok, ?_⟩
  intro v hv
  exact initKnots_degree (buildVertex_keys_nodup (primaryEdges vd)) hv

/-- C8 witness: the wire chain specification applied to the Y-branch
diagram. -/
theorem wire_chain_spec_witness :
    (∀ w ∈ collectVoronoiWires yVd, w ≠ [] ∧
      List.Chain' (fun e f => e.b = f.a) w ∧
      (w.headD default).a ∈ knotVertices yVd ∧
      (w.getLastD default).b ∈ knotVertices yVd) ∧
    (∀ v ∈ knotVertices yVd,
      ((mget (buildVertex (primaryEdges yVd)) v).length = 1 ∨
        2 < (mget (buildVertex (primaryEdges yVd)) v).length) ∨
      (∀ u, ¬((mget (buildVertex (primaryEdges yVd)) u).length = 1 ∨
        2 < (mget (buildVertex (primaryEdges yVd)) u).length))) :=
  wire_chain_spec yVd (by decide)

/-- C9 witness: the odd-length and endpoint-preservation part applied with the
identity simplifier to a 3-point polyline. -/
theorem simplify_edges_spec_witness :
    oddFix ([((0 : Rat), (0 : Rat), (0 : Rat)), (1, 0, 0)] ++ [(2, 0, 0)])
      = [((0 : Rat), (0 : Rat), (0 : Rat)), (1, 0, 0)]
        ++ [median (([((0 : Rat), (0 : Rat), (0 : Rat)), (1, 0, 0)] ++ [(2, 0, 0)]).getD 1
            default) (2, 0, 0), (2, 0, 0)] := by
  exact simplify_edges_spec.1 [((0 : Rat), (0 : Rat), (0 : Rat)), (1, 0, 0)] (2, 0, 0)
    (by decide)

end Vcarve
